import Mathlib

/-!
Verification development for the `statistics` repository (dense linear
algebra + GLM/IRLS fitting engine).

Shallow embedding conventions:
* `f64` values are modelled exactly.  In the Cholesky development a value is
  an element of `F` (a rational, or `nan` for any non-finite result); all
  arithmetic on `F` propagates `nan`.  In the GLM development values are
  plain rationals `ℚ` (the IRLS claims do not involve non-finite values),
  except for the penalized-deviance tracker which the source explicitly
  initializes to `+infinity` and tests with `is_infinite`; it is modelled by
  `PDev` (infinity, or a finite rational).
* Rational division is total with `q / 0 = 0`; no claim settled here
  depends on the value of a division by zero.
* Several functions used by the code under `src/` live in files that are
  not part of `src/` (`utils.rs`, `vops.rs`, the exponential-family
  implementation, the Cholesky-based `solve`).  Each such definition is
  marked `Modelled from the spec:` and follows the specification's words;
  the abstract `Family` structure and the `solve` parameter of `fit` stand
  for the missing exponential-family and linear-solve code.
-/

namespace Stats

/-- A model of an `f64` value for the Cholesky development: either an exact
finite rational or `nan`.  Non-finite results (NaN from `sqrt` of a negative
number, and the non-finite results of division by zero, which no claim
distinguishes from NaN) are folded into `nan`. -/
inductive F where
  | nan : F
  | fin : ℚ → F
deriving DecidableEq, Repr

/-- Addition on modelled floats; `nan` propagates. -/
def addF : F → F → F
  | .fin a, .fin b => .fin (a + b)
  | _, _ => .nan

/-- Subtraction on modelled floats; `nan` propagates. -/
def subF : F → F → F
  | .fin a, .fin b => .fin (a - b)
  | _, _ => .nan

/-- Multiplication on modelled floats; `nan` propagates. -/
def mulF : F → F → F
  | .fin a, .fin b => .fin (a * b)
  | _, _ => .nan

/-- Division on modelled floats; `nan` propagates, and division by zero
yields `nan` (the model does not distinguish NaN from ±infinity). -/
def divF : F → F → F
  | .fin a, .fin b => if b = 0 then .nan else .fin (a / b)
  | _, _ => .nan

/-- Modelled from the spec: the slice dot product `dot` used by `cholesky`
(`src/linalg/decomposition/cholesky.rs` imports it from `crate::linalg`,
whose `utils`/`vops` modules are not under `src/`): the sum of elementwise
products of two equal-length slices. -/
def dotF (u v : List F) : F :=
  (List.zipWith mulF u v).foldl addF (.fin 0)

/-- Modelled from the spec: `is_square` returns the side length `n` of a
flattened `n×n` matrix and fails when the length is not a perfect square.
Implemented by bounded search so that it reduces inside the kernel. -/
def is_square (a : List F) : Option ℕ :=
  (List.range (a.length + 1)).find? (fun n => n * n = a.length)

/-- Modelled from the spec: `is_symmetric` checks that the input is a
flattened square matrix with `A[i·n+j] = A[j·n+i]` for all `i, j < n`
(exact equality in the model). -/
def is_symmetric (a : List F) : Bool :=
  match is_square a with
  | none => false
  | some n => decide (∀ i, i < n → ∀ j, j < n → a.getD (i * n + j) .nan = a.getD (j * n + i) .nan)

/-- The slice dot product `s` appearing in the Cholesky–Banachiewicz
recurrence: `dot(L[row j, cols 0..j], L[row i, cols 0..j])`. -/
def cholS (n : ℕ) (l : List F) (i j : ℕ) : F :=
  dotF ((l.drop (j * n)).take j) ((l.drop (i * n)).take j)

/-- The value written into `L[i·n+j]` by the inner loop body of `cholesky`:
`sqrt(A[i,i] - s)` on the diagonal and `(A[i,j] - s) / L[j,j]` below it.
The square-root primitive `sq` is a parameter (its result on a non-negative
rational is irrational in general). -/
def cholVal (sq : F → F) (a : List F) (n : ℕ) (l : List F) (i j : ℕ) : F :=
  if i = j then sq (subF (a.getD (i * n + i) .nan) (cholS n l i j))
  else divF (subF (a.getD (i * n + j) .nan) (cholS n l i j)) (l.getD (j * n + j) .nan)

/-- One inner-loop step of `cholesky`: write `cholVal` into `L[i·n+j]`. -/
def cholInner (sq : F → F) (a : List F) (n i : ℕ) (l : List F) (j : ℕ) : List F :=
  l.set (i * n + j) (cholVal sq a n l i j)

/-- One outer-loop step of `cholesky`: process row `i`, columns `0..i`. -/
def cholRow (sq : F → F) (a : List F) (n : ℕ) (l : List F) (i : ℕ) : List F :=
  (List.range (i + 1)).foldl (cholInner sq a n i) l

/-- The Cholesky decomposition from
`src/linalg/decomposition/cholesky.rs`: assert the input is symmetric
(which subsumes squareness), allocate an `n·n` zero buffer, and run the
Cholesky–Banachiewicz double loop.  The failed assertions of the source
(panics) are modelled by `none`. -/
def cholesky (sq : F → F) (a : List F) : Option (List F) :=
  if is_symmetric a then
    match is_square a with
    | some n => some ((List.range n).foldl (cholRow sq a n) (List.replicate (n * n) (.fin 0)))
    | none => none
  else none

/-- Modelled from the spec: elementwise addition of equal-length sequences
(`vadd` from the `vops` module, which is not under `src/`). -/
def vadd (u v : List ℚ) : List ℚ := List.zipWith (· + ·) u v

/-- Modelled from the spec: elementwise subtraction. -/
def vsub (u v : List ℚ) : List ℚ := List.zipWith (· - ·) u v

/-- Modelled from the spec: elementwise multiplication. -/
def vmul (u v : List ℚ) : List ℚ := List.zipWith (· * ·) u v

/-- Modelled from the spec: elementwise division. -/
def vdiv (u v : List ℚ) : List ℚ := List.zipWith (· / ·) u v

/-- Modelled from the spec: `mean(slice)`, the plain mean of a sequence. -/
def mean (y : List ℚ) : ℚ := y.sum / y.length

/-- Modelled from the spec: `matmul(a, b, a_rows, b_rows, transpose_a,
transpose_b)`.  Column counts are inferred from the flattened lengths; the
effective (possibly transposed) operands are read by index arithmetic
without materializing a transposed copy; the inner dimensions are
validated, a mismatch failing the call (`none`). -/
def matmulEntry (a b : List ℚ) (acols bcols kk : ℕ) (ta tb : Bool) (i j : ℕ) : ℚ :=
  ((List.range kk).map (fun k =>
    (if ta then a.getD (k * acols + i) 0 else a.getD (i * acols + k) 0) *
    (if tb then b.getD (j * bcols + k) 0 else b.getD (k * bcols + j) 0))).sum

/-- Modelled from the spec (continued): the full `matmul`. -/
def matmul (a b : List ℚ) (arows brows : ℕ) (ta tb : Bool) : Option (List ℚ) :=
  let acols := a.length / arows
  let bcols := b.length / brows
  let m := if ta then acols else arows
  let k1 := if ta then arows else acols
  let k2 := if tb then bcols else brows
  let q := if tb then brows else bcols
  if k1 = k2 then
    some ((List.range (m * q)).map (fun idx =>
      matmulEntry a b acols bcols k1 ta tb (idx / q) (idx % q)))
  else none

/-- Modelled from the spec: `is_matrix(x, n)` validates that `x` is a
flattened matrix with `n` rows and returns the column count `p`. -/
def is_matrix (x : List ℚ) (n : ℕ) : Option ℕ :=
  if 0 < n ∧ n ∣ x.length then some (x.length / n) else none

/-- Modelled from the spec: `is_design(x, n)` holds exactly when `x` is an
`n`-row matrix whose first column is all ones. -/
def is_design (x : List ℚ) (n : ℕ) : Bool :=
  match is_matrix x n with
  | none => false
  | some p => decide (∀ i, i < n → x.getD (i * p) 0 = 1)

/-- The dense row-major matrix of `src/linalg/array` (`data` flattened,
with `nrows·ncols` entries). -/
structure Matrix where
  data : List ℚ
  nrows : ℕ
  ncols : ℕ
deriving DecidableEq, Repr

/-- Row-major entry access into a flattened matrix with `cols` columns. -/
def entryAt (d : List ℚ) (cols i j : ℕ) : ℚ := d.getD (i * cols + j) 0

/-- The `dot` method of the matrix-matrix `Dot` implementation
(`src/linalg/array/dot.rs`): assert `self.ncols == other.nrows` (a failed
assertion is `none`), multiply with no transposition, and wrap the output
with shape `self.nrows × other.ncols`. -/
def Matrix.dot (A B : Matrix) : Option Matrix :=
  if A.ncols = B.nrows then
    (matmul A.data B.data A.nrows B.nrows false false).map
      (fun out => ⟨out, A.nrows, B.ncols⟩)
  else none

/-- The `t_dot` method: assert `self.nrows == other.nrows`, multiply with
the left operand transposed, shape `self.ncols × other.ncols`. -/
def Matrix.t_dot (A B : Matrix) : Option Matrix :=
  if A.nrows = B.nrows then
    (matmul A.data B.data A.nrows B.nrows true false).map
      (fun out => ⟨out, A.ncols, B.ncols⟩)
  else none

/-- The `dot_t` method: assert `self.ncols == other.ncols`, multiply with
the right operand transposed, shape `self.nrows × other.nrows`. -/
def Matrix.dot_t (A B : Matrix) : Option Matrix :=
  if A.ncols = B.ncols then
    (matmul A.data B.data A.nrows B.nrows false true).map
      (fun out => ⟨out, A.nrows, B.nrows⟩)
  else none

/-- The `t_dot_t` method: assert `self.nrows == other.ncols`, multiply with
both operands transposed, shape `self.ncols × other.nrows`. -/
def Matrix.t_dot_t (A B : Matrix) : Option Matrix :=
  if A.nrows = B.ncols then
    (matmul A.data B.data A.nrows B.nrows true true).map
      (fun out => ⟨out, A.ncols, B.nrows⟩)
  else none

/-- The penalized-deviance tracker of `GLM::fit`: the source initializes it
to `f64::INFINITY` and `has_converged` tests `is_infinite`, so the model
keeps the infinity case explicit; every subsequently stored value is
finite. -/
inductive PDev where
  | inf : PDev
  | fin : ℚ → PDev
deriving DecidableEq, Repr

/-- Modelled from the spec: the exponential-family abstraction (the
`ExponentialFamily` implementation is not under `src/`).  A family supplies
the vectorized `inv_link`, `d_inv_link` and `variance` maps and the scalar
`deviance`; the IRLS claims hold for every family, so the functions are
abstract. -/
structure Family where
  inv_link : List ℚ → List ℚ
  d_inv_link : List ℚ → List ℚ → List ℚ
  variance : List ℚ → List ℚ
  deviance : List ℚ → List ℚ → ℚ

/-- The ridge term `sum(coefficients[1:]²)` excluding the intercept. -/
def ridgeTerm (coef : List ℚ) : ℚ := ((coef.drop 1).map (fun c => c * c)).sum

/-- Modelled from the spec: `penalized_deviance(y, mu, penalty, coef)` adds
`penalty · sum(coef[1:]²)` (excluding the intercept) to the deviance. -/
def Family.penalized_deviance (fam : Family) (y mu : List ℚ) (alpha : ℚ) (coef : List ℚ) : ℚ :=
  fam.deviance y mu + alpha * ridgeTerm coef

/-- The `GLM` model state relevant to fitting (`src/predict/glm/glm.rs`):
family, ridge strength `alpha`, convergence `tolerance`, and the optional
weights and offsets.  The fitted outputs are returned by `fit` here rather
than mutated in place. -/
structure GLM where
  family : Family
  alpha : ℚ
  tolerance : ℚ
  weights : Option (List ℚ)
  offsets : Option (List ℚ)

/-- `GLM::has_converged` (`src/predict/glm/glm.rs:65`): never converged
while the previous loss is infinite; otherwise compare the relative change
`|loss - loss_previous| / loss_previous` (the signed previous value is the
denominator) strictly against the tolerance. -/
def has_converged (loss : ℚ) (loss_previous : PDev) (tolerance : ℚ) : Bool :=
  match loss_previous with
  | .inf => false
  | .fin lp => decide (|loss - lp| / lp < tolerance)

/-- `GLM::compute_dbeta`: the gradient `-Xᵀ·r` with working residuals
`r = weights · (y - mu) · (dmu / var)`.  The source recovers `n` and `p`
from `y.len()` and `is_matrix`; they are passed explicitly here. -/
def compute_dbeta (x y mu dmu var weights : List ℚ) (n p : ℕ) : List ℚ :=
  let working_residuals := vmul (vmul weights (vsub y mu)) (vdiv dmu var)
  (List.range p).map (fun ip =>
    -((List.range n).map (fun iN => x.getD (iN * p + ip) 0 * working_residuals.getD iN 0)).sum)

/-- The row-scaled copy of `x` built inside `compute_ddbeta`:
`weighted_x[i_n·p + i_p] = x[i_n·p + i_p] · w[i_n]`. -/
def weightedX (x ww : List ℚ) (n p : ℕ) : List ℚ :=
  (List.range (n * p)).map (fun idx => x.getD idx 0 * ww.getD (idx / p) 0)

/-- `GLM::compute_ddbeta`: the weighted cross-product `Xᵀ·diag(w)·X` with
working weights `w = weights · dmu² / var`, computed by scaling the rows of
`x` and calling `matmul(x, weighted_x, n, n, true, false)` (which cannot
fail here since both effective inner dimensions are `n`). -/
def compute_ddbeta (x y dmu var weights : List ℚ) (n p : ℕ) : List ℚ :=
  let working_weights := vdiv (vmul weights (vmul dmu dmu)) var
  (matmul x (weightedX x working_weights n p) n n true false).getD []

/-- `GLM::apply_dbeta_penalty`: `dbeta[i] += coef[i]` for every
non-intercept index `i ∈ 1..coef.len()`. -/
def apply_dbeta_penalty (dbeta coef : List ℚ) : List ℚ :=
  (List.range' 1 (coef.length - 1)).foldl
    (fun db i => db.set i (db.getD i 0 + coef.getD i 0)) dbeta

/-- `GLM::apply_ddbeta_penalty`: `ddbeta[i·p + i] += alpha` for every
index `i ∈ 0..p`, the intercept index `0` included. -/
def apply_ddbeta_penalty (ddbeta : List ℚ) (p : ℕ) (alpha : ℚ) : List ℚ :=
  (List.range p).foldl
    (fun dd i => dd.set (i * p + i) (dd.getD (i * p + i) 0 + alpha)) ddbeta

/-- The validation failures of `GLM::fit` (panics in the source). -/
inductive FitError where
  | notMatrix : FitError
  | notDesign : FitError
  | badWeights : FitError
  | badOffsets : FitError
deriving DecidableEq, Repr

/-- Everything one pass of the IRLS loop computes. -/
structure PassOut where
  coef : List ℚ
  mu : List ℚ
  dmu : List ℚ
  var : List ℚ
  dbeta : List ℚ
  ddbeta : List ℚ
  pdev : ℚ
  converged : Bool
deriving DecidableEq, Repr

/-- The body of one IRLS pass after the linear predictor `nu` is known:
compute `mu`, `dmu`, `var`, the gradient and Hessian, apply the ridge
penalties when `alpha > 0`, update `coef ← coef - solve(ddbeta, dbeta)`,
recompute the penalized deviance at the updated `coef` and the current
`mu`, and test convergence against the previous penalized deviance. -/
def passCore (fam : Family) (solve : List ℚ → List ℚ → List ℚ) (alpha tol : ℚ)
    (x y weights : List ℚ) (n p : ℕ) (coef : List ℚ) (prev : PDev)
    (nu : List ℚ) : PassOut :=
  let mu := fam.inv_link nu
  let dmu := fam.d_inv_link nu mu
  let var := fam.variance mu
  let dbeta0 := compute_dbeta x y mu dmu var weights n p
  let ddbeta0 := compute_ddbeta x y dmu var weights n p
  let dbeta := if 0 < alpha then apply_dbeta_penalty dbeta0 coef else dbeta0
  let ddbeta := if 0 < alpha then apply_ddbeta_penalty ddbeta0 p alpha else ddbeta0
  let coef2 := vsub coef (solve ddbeta dbeta)
  let pdev := fam.penalized_deviance y mu alpha coef2
  ⟨coef2, mu, dmu, var, dbeta, ddbeta, pdev, has_converged pdev prev tol⟩

/-- One pass of the IRLS loop of `GLM::fit` (`src/predict/glm/glm.rs:167`):
compute `nu = X·coef`, add the offsets if present — asserting, inside the
loop, that their length is `n` — then run `passCore`. -/
def irlsPass (fam : Family) (solve : List ℚ → List ℚ → List ℚ) (alpha tol : ℚ)
    (offsets : Option (List ℚ)) (x y weights : List ℚ) (n p : ℕ)
    (coef : List ℚ) (prev : PDev) : Except FitError PassOut :=
  let nu0 := (matmul x coef n p false false).getD []
  match offsets with
  | some o =>
      if o.length = n then
        .ok (passCore fam solve alpha tol x y weights n p coef prev (vadd nu0 o))
      else .error .badOffsets
  | none => .ok (passCore fam solve alpha tol x y weights n p coef prev nu0)

/-- The loop state carried out of the IRLS loop on termination. -/
structure LoopOut where
  coef : List ℚ
  mu : List ℚ
  dmu : List ℚ
  var : List ℚ
  pdev : ℚ
  n_iter : ℕ
deriving DecidableEq, Repr

/-- The IRLS loop: run a pass, increment `n_iter`, and stop as soon as
`max_iter ≤ n_iter` or the pass signalled convergence; otherwise thread
the new coefficients and the new penalized deviance into the next pass.
`fuel` is a structural-recursion bound; `fit` supplies `fuel = max_iter`.
When the fuel is exhausted the stop test `max_iter ≤ n_iter + 1` is
necessarily true (continuing a pass requires `n_iter + 1 < max_iter` and
the fuel tracks `max_iter - n_iter`), so the zero-fuel arm returns
directly what the stop branch would return. -/
def fitLoop (fam : Family) (solve : List ℚ → List ℚ → List ℚ) (alpha tol : ℚ)
    (offsets : Option (List ℚ)) (x y weights : List ℚ) (n p max_iter : ℕ) :
    ℕ → List ℚ → PDev → ℕ → Except FitError LoopOut
  | 0, coef, prev, n_iter =>
    match irlsPass fam solve alpha tol offsets x y weights n p coef prev with
    | .error e => .error e
    | .ok out => .ok ⟨out.coef, out.mu, out.dmu, out.var, out.pdev, n_iter + 1⟩
  | fuel + 1, coef, prev, n_iter =>
    match irlsPass fam solve alpha tol offsets x y weights n p coef prev with
    | .error e => .error e
    | .ok out =>
        if max_iter ≤ n_iter + 1 ∨ out.converged then
          .ok ⟨out.coef, out.mu, out.dmu, out.var, out.pdev, n_iter + 1⟩
        else
          fitLoop fam solve alpha tol offsets x y weights n p max_iter fuel
            out.coef (.fin out.pdev) (n_iter + 1)

/-- The entry validation of `GLM::fit` (`src/predict/glm/glm.rs:139`):
`is_matrix(x, n)` with `n = y.len()`, the design invariant, and — when
weights are set — their length; on success it returns `p` and the resolved
weights (defaulting to all ones).  The offsets are not examined here. -/
def fitValidate (m : GLM) (x y : List ℚ) : Except FitError (ℕ × List ℚ) :=
  let n := y.length
  match is_matrix x n with
  | none => .error .notMatrix
  | some p =>
      if is_design x n then
        match m.weights with
        | some w => if w.length = n then .ok (p, w) else .error .badWeights
        | none => .ok (p, List.replicate n 1)
      else .error .notDesign

/-- The artifact of a completed fit.  `coef`, `deviance` and
`information_matrix` are the fields the source stores; `mu`, `dmu`, `var`,
`pdev` and `n_iter` mirror the loop locals of the source (instrumentation
used to state the claims). -/
structure FitResult where
  coef : List ℚ
  deviance : ℚ
  information_matrix : List ℚ
  mu : List ℚ
  dmu : List ℚ
  var : List ℚ
  pdev : ℚ
  n_iter : ℕ
deriving DecidableEq, Repr

/-- `GLM::fit` (`src/predict/glm/glm.rs:139`): validate, seed the
coefficients with the response mean in the intercept slot, run the IRLS
loop from a `+infinity` deviance tracker, and on termination store the
final coefficients, the unpenalized deviance at the final `mu`, and the
freshly recomputed (unpenalized) `ddbeta` as the information matrix.
The Cholesky-based `solve` lives outside `src/` and is a parameter. -/
def fit (m : GLM) (solve : List ℚ → List ℚ → List ℚ) (x y : List ℚ)
    (max_iter : ℕ) : Except FitError FitResult :=
  match fitValidate m x y with
  | .error e => .error e
  | .ok (p, weights) =>
      let n := y.length
      let coef0 := (List.replicate p (0 : ℚ)).set 0 (mean y)
      match fitLoop m.family solve m.alpha m.tolerance m.offsets x y weights n p
          max_iter max_iter coef0 .inf 0 with
      | .error e => .error e
      | .ok lo =>
          .ok ⟨lo.coef, m.family.deviance y lo.mu,
               compute_ddbeta x y lo.dmu lo.var weights n p,
               lo.mu, lo.dmu, lo.var, lo.pdev, lo.n_iter⟩

/-- A square-root stub used to instantiate theorems at concrete inputs: it
returns `nan` on negative arguments exactly like the real `f64::sqrt`
primitive; the claims never constrain its non-negative values. -/
def sqEx : F → F
  | .nan => .nan
  | .fin q => if q < 0 then .nan else .fin 0

/-- Concrete symmetric positive input for instantiating the Cholesky
claims. -/
def aSym2 : List F := [.fin 4, .fin 2, .fin 2, .fin 3]

/-- Concrete symmetric input with a negative leading pivot. -/
def aNeg2 : List F := [.fin (-1), .fin 0, .fin 0, .fin 1]

/-- Concrete non-symmetric input. -/
def aAsym2 : List F := [.fin 0, .fin 1, .fin 2, .fin 0]

/-- Concrete identity-link family (the Gaussian member of the family
abstraction) used to instantiate the IRLS claims: identity `inv_link`,
unit `d_inv_link` and `variance`, squared-error `deviance`. -/
def exFam : Family :=
  ⟨fun nu => nu, fun nu _ => nu.map (fun _ => 1), fun mu => mu.map (fun _ => 1),
   fun y mu => ((vsub y mu).map (fun r => r * r)).sum⟩

/-- Exact linear solve for the 1×1 systems arising in the concrete
instantiations: `x = b / a` (what forward plus back substitution on the
1×1 Cholesky factor computes exactly). -/
def exSolve1 : List ℚ → List ℚ → List ℚ :=
  fun dd db => [db.getD 0 0 / dd.getD 0 0]

/-- Exact solution of the concrete 2×2 system `[[2,1],[1,1]]·δ = [0,-1]`
arising in the C4 instantiation (what the Cholesky solve computes there in
exact arithmetic). -/
def solveC4 : List ℚ → List ℚ → List ℚ := fun _ _ => [1, -2]

/-- Concrete model: identity family, no penalty, tolerance `1e-5`. -/
def exGLM : GLM := ⟨exFam, 0, 1 / 100000, none, none⟩

/-- Concrete model with ridge penalty `alpha = 1`. -/
def exGLMa : GLM := ⟨exFam, 1, 1 / 100000, none, none⟩

/-- Concrete model whose offsets have the wrong length for `y = [2]`. -/
def mBadOff : GLM := ⟨exFam, 0, 1 / 100000, none, some [1, 2, 3]⟩

end Stats

namespace Stats

/-! ### Generic list and index helpers -/

theorem getD_set_ne' {α : Type _} (l : List α) (p k : ℕ) (v d : α) (h : p ≠ k) :
    (l.set p v).getD k d = l.getD k d := by
  simp [List.getD_eq_getElem?_getD, List.getElem?_set_ne h]

theorem getD_set_self' {α : Type _} (l : List α) (p : ℕ) (v d : α) (h : p < l.length) :
    (l.set p v).getD p d = v := by
  simp [List.getD_eq_getElem?_getD, List.getElem?_set_self h]

theorem getD_replicate_lt {α : Type _} (N k : ℕ) (c d : α) (h : k < N) :
    (List.replicate N c).getD k d = c := by
  simp [List.getD_eq_getElem?_getD, List.getElem?_replicate, h]

theorem getD_range_map {α : Type _} (f : ℕ → α) (N k : ℕ) (d : α) (h : k < N) :
    ((List.range N).map f).getD k d = f k := by
  simp [List.getD_eq_getElem?_getD, List.getElem?_map, List.getElem?_range h]

theorem slice_set_high {α : Type _} (l : List α) (p d t : ℕ) (v : α) (h : d + t ≤ p) :
    ((l.set p v).drop d).take t = (l.drop d).take t := by
  apply List.ext_getElem?
  intro k
  by_cases hk : k < t
  · rw [List.getElem?_take_of_lt hk, List.getElem?_take_of_lt hk,
        List.getElem?_drop, List.getElem?_drop,
        List.getElem?_set_ne (by omega : p ≠ d + k)]
  · rw [List.getElem?_take_eq_none (by omega), List.getElem?_take_eq_none (by omega)]

theorem foldl_range_succ {β : Type _} (f : β → ℕ → β) (b : β) (t : ℕ) :
    (List.range (t + 1)).foldl f b = f ((List.range t).foldl f b) t := by
  rw [List.range_succ, List.foldl_append, List.foldl_cons, List.foldl_nil]

theorem row_idx_lt {r c n M : ℕ} (hr : r < M) (hc : c < n) : r * n + c < M * n := by
  calc r * n + c < r * n + n := by omega
  _ = (r + 1) * n := by ring
  _ ≤ M * n := Nat.mul_le_mul (by omega) le_rfl

theorem idx_lt {i j n : ℕ} (hi : i < n) (hj : j < n) : i * n + j < n * n :=
  row_idx_lt hi hj

theorem idx_inj {n i i' j j' : ℕ} (hj : j < n) (hj' : j' < n)
    (h : i * n + j = i' * n + j') : i = i' ∧ j = j' := by
  have hn : 0 < n := by omega
  have h1 : (i * n + j) / n = i := by
    rw [Nat.mul_comm, Nat.mul_add_div hn, Nat.div_eq_of_lt hj, Nat.add_zero]
  have h2 : (i' * n + j') / n = i' := by
    rw [Nat.mul_comm, Nat.mul_add_div hn, Nat.div_eq_of_lt hj', Nat.add_zero]
  have hii : i = i' := by rw [← h1, ← h2, h]
  refine ⟨hii, ?_⟩
  subst hii
  exact Nat.add_left_cancel h

end Stats

namespace Stats

/-! ### Cholesky loop invariants -/

theorem cholVal_set (sq : F → F) (a : List F) (n : ℕ) (l : List F) (v : F) (p i j : ℕ)
    (h1 : j * n + j ≤ p) (h2 : i * n + j ≤ p) (h3 : i = j ∨ j * n + j ≠ p) :
    cholVal sq a n (l.set p v) i j = cholVal sq a n l i j := by
  unfold cholVal cholS
  rw [slice_set_high l p (j * n) j v h1, slice_set_high l p (i * n) j v h2]
  by_cases hij : i = j
  · simp [hij]
  · have hne : p ≠ j * n + j := by
      cases h3 with
      | inl h => exact absurd h hij
      | inr h => exact Ne.symm h
    rw [if_neg hij, if_neg hij, getD_set_ne' l p (j * n + j) v _ hne]

theorem foldl_cholInner_length (sq : F → F) (a : List F) (n i : ℕ) (js : List ℕ) :
    ∀ l : List F, (js.foldl (cholInner sq a n i) l).length = l.length := by
  induction js with
  | nil => intro l; rfl
  | cons j js ih => intro l; rw [List.foldl_cons, ih]; simp [cholInner]

theorem chol_row_spec (sq : F → F) (a : List F) (n m : ℕ) (L : List F)
    (hm : m < n) (hL : L.length = n * n)
    (hrec : ∀ i j, i < m → j ≤ i → L.getD (i * n + j) .nan = cholVal sq a n L i j)
    (hzero : ∀ i j, i < n → j < n → (m ≤ i ∨ i < j) → L.getD (i * n + j) .nan = .fin 0) :
    ∀ t, t ≤ m + 1 →
      ((List.range t).foldl (cholInner sq a n m) L).length = n * n ∧
      (∀ i j, i < m → j ≤ i →
        ((List.range t).foldl (cholInner sq a n m) L).getD (i * n + j) .nan
          = cholVal sq a n ((List.range t).foldl (cholInner sq a n m) L) i j) ∧
      (∀ j, j < t →
        ((List.range t).foldl (cholInner sq a n m) L).getD (m * n + j) .nan
          = cholVal sq a n ((List.range t).foldl (cholInner sq a n m) L) m j) ∧
      (∀ i j, i < n → j < n → (m + 1 ≤ i ∨ (i = m ∧ t ≤ j) ∨ (i < m ∧ i < j)) →
        ((List.range t).foldl (cholInner sq a n m) L).getD (i * n + j) .nan = .fin 0) := by
  intro t
  induction t with
  | zero =>
      intro _
      refine ⟨hL, ?_, ?_, ?_⟩
      · intro i j hi hj; exact hrec i j hi hj
      · intro j hj; omega
      · intro i j hi hj hcond
        refine hzero i j hi hj ?_
        rcases hcond with h | ⟨h, _⟩ | ⟨h, h'⟩
        · left; omega
        · left; omega
        · right; exact h'
  | succ t ih =>
      intro ht
      obtain ⟨ihlen, ihrec, ihrow, ihzero⟩ := ih (by omega)
      have htm : t ≤ m := by omega
      have htn : t < n := by omega
      rw [foldl_range_succ]
      set R := (List.range t).foldl (cholInner sq a n m) L with hR
      have hplt : m * n + t < n * n := idx_lt hm htn
      have hRlen : R.length = n * n := ihlen
      have hstep : cholInner sq a n m R t = R.set (m * n + t) (cholVal sq a n R m t) := rfl
      rw [hstep]
      -- the invariance of cholVal under the write for all relevant cells
      have hinv_old : ∀ i j, i < m → j ≤ i →
          cholVal sq a n (R.set (m * n + t) (cholVal sq a n R m t)) i j
            = cholVal sq a n R i j := by
        intro i j hi hj
        have hjm : j < m := by omega
        have hjn : j < n := by omega
        have hb1 : j * n + j < m * n := row_idx_lt hjm hjn
        have hb2 : i * n + j < m * n := row_idx_lt hi hjn
        exact cholVal_set sq a n R _ _ i j (by omega) (by omega) (Or.inr (by omega))
      have hinv_row : ∀ j, j < t →
          cholVal sq a n (R.set (m * n + t) (cholVal sq a n R m t)) m j
            = cholVal sq a n R m j := by
        intro j hj
        have hjm : j < m := by omega
        have hjn : j < n := by omega
        have hb1 : j * n + j < m * n := row_idx_lt hjm hjn
        exact cholVal_set sq a n R _ _ m j (by omega) (by omega) (Or.inr (by omega))
      have hinv_new :
          cholVal sq a n (R.set (m * n + t) (cholVal sq a n R m t)) m t
            = cholVal sq a n R m t := by
        have hb1 : t * n + t ≤ m * n + t := by
          have : t * n ≤ m * n := Nat.mul_le_mul htm le_rfl
          omega
        by_cases hmt : m = t
        · exact cholVal_set sq a n R _ _ m t hb1 le_rfl (Or.inl hmt)
        · have hb : t * n + t < m * n := row_idx_lt (by omega) htn
          exact cholVal_set sq a n R _ _ m t hb1 le_rfl (Or.inr (by omega))
      refine ⟨?_, ?_, ?_, ?_⟩
      · rw [List.length_set]; exact hRlen
      · intro i j hi hj
        have hjn : j < n := by omega
        have hb2 : i * n + j < m * n := row_idx_lt hi hjn
        rw [getD_set_ne' R _ _ _ _ (by omega), hinv_old i j hi hj]
        exact ihrec i j hi hj
      · intro j hj
        by_cases hjt : j = t
        · subst hjt
          rw [getD_set_self' R _ _ _ (by omega), hinv_new]
        · have hjlt : j < t := by omega
          have hne : m * n + t ≠ m * n + j := by
            intro hc
            have := Nat.add_left_cancel hc
            omega
          rw [getD_set_ne' R _ _ _ _ hne, hinv_row j hjlt]
          exact ihrow j hjlt
      · intro i j hi hj hcond
        have hne : m * n + t ≠ i * n + j := by
          intro hc
          obtain ⟨hi', hj'⟩ := idx_inj htn hj hc
          rcases hcond with h | ⟨h, h'⟩ | ⟨h, _⟩ <;> omega
        rw [getD_set_ne' R _ _ _ _ hne]
        refine ihzero i j hi hj ?_
        rcases hcond with h | ⟨h, h'⟩ | ⟨h, h'⟩
        · exact Or.inl h
        · exact Or.inr (Or.inl ⟨h, by omega⟩)
        · exact Or.inr (Or.inr ⟨h, h'⟩)

end Stats

namespace Stats

theorem chol_fold_spec (sq : F → F) (a : List F) (n : ℕ) :
    ∀ m, m ≤ n →
      ((List.range m).foldl (cholRow sq a n) (List.replicate (n * n) (.fin 0))).length = n * n ∧
      (∀ i j, i < m → j ≤ i →
        ((List.range m).foldl (cholRow sq a n) (List.replicate (n * n) (.fin 0))).getD (i * n + j) .nan
          = cholVal sq a n ((List.range m).foldl (cholRow sq a n) (List.replicate (n * n) (.fin 0))) i j) ∧
      (∀ i j, i < n → j < n → (m ≤ i ∨ i < j) →
        ((List.range m).foldl (cholRow sq a n) (List.replicate (n * n) (.fin 0))).getD (i * n + j) .nan = .fin 0) := by
  intro m
  induction m with
  | zero =>
      intro _
      refine ⟨by simp, by omega, ?_⟩
      intro i j hi hj _
      exact getD_replicate_lt (n * n) (i * n + j) _ _ (idx_lt hi hj)
  | succ m ih =>
      intro hm
      obtain ⟨ihlen, ihrec, ihzero⟩ := ih (by omega)
      have hmn : m < n := by omega
      rw [foldl_range_succ]
      set L := (List.range m).foldl (cholRow sq a n) (List.replicate (n * n) (.fin 0)) with hLdef
      have hrow := chol_row_spec sq a n m L hmn ihlen ihrec ihzero (m + 1) le_rfl
      have hcr : cholRow sq a n L m = (List.range (m + 1)).foldl (cholInner sq a n m) L := rfl
      rw [hcr]
      obtain ⟨rlen, rrec, rrow, rzero⟩ := hrow
      refine ⟨rlen, ?_, ?_⟩
      · intro i j hi hj
        by_cases him : i < m
        · exact rrec i j him hj
        · have : i = m := by omega
          subst this
          exact rrow j (by omega)
      · intro i j hi hj hcond
        refine rzero i j hi hj ?_
        rcases hcond with h | h
        · by_cases him : m + 1 ≤ i
          · exact Or.inl him
          · have : i = m := by omega
            subst this
            exact Or.inr (Or.inl ⟨rfl, by omega⟩)
        · by_cases him : m + 1 ≤ i
          · exact Or.inl him
          · by_cases him2 : i = m
            · exact Or.inr (Or.inl ⟨him2, by omega⟩)
            · exact Or.inr (Or.inr ⟨by omega, h⟩)

theorem cholesky_eq_fold (sq : F → F) (a : List F) (n : ℕ)
    (hn : is_square a = some n) (hsym : is_symmetric a = true) :
    cholesky sq a
      = some ((List.range n).foldl (cholRow sq a n) (List.replicate (n * n) (.fin 0))) := by
  unfold cholesky
  rw [hsym, if_pos rfl, hn]

end Stats

namespace Stats

theorem divF_nan_right (x : F) : divF x .nan = .nan := by cases x <;> rfl

/-- C1: for every flattened symmetric square `n×n` input `A`, `cholesky(A)`
returns an `n×n` flattened matrix `L` whose strictly-upper-triangular
entries are all zero and whose entries satisfy the Cholesky–Banachiewicz
recurrence: with `s = dot(L[row j, cols 0..j], L[row i, cols 0..j])`,
`L[i,i] = sqrt(A[i,i] - s)` and, for `j < i`,
`L[i,j] = (A[i,j] - s) / L[j,j]` (`cholVal` states exactly this
recurrence). -/
theorem claim_C1 (sq : F → F) (a : List F) (n : ℕ)
    (hn : is_square a = some n) (hsym : is_symmetric a = true) :
    ∃ l, cholesky sq a = some l ∧ l.length = n * n ∧
      (∀ i j, i < n → j < n → i < j → l.getD (i * n + j) .nan = .fin 0) ∧
      (∀ i j, j ≤ i → i < n → l.getD (i * n + j) .nan = cholVal sq a n l i j) := by
  obtain ⟨hlen, hrec, hzero⟩ := chol_fold_spec sq a n n le_rfl
  refine ⟨_, cholesky_eq_fold sq a n hn hsym, hlen, ?_, ?_⟩
  · intro i j hi hj hij
    exact hzero i j hi hj (Or.inr hij)
  · intro i j hj hi
    exact hrec i j hi hj

theorem claim_C1_witness :
    is_square aSym2 = some 2 ∧ is_symmetric aSym2 = true ∧
    (∃ l, cholesky sqEx aSym2 = some l ∧ l.length = 2 * 2 ∧
      (∀ i j, i < 2 → j < 2 → i < j → l.getD (i * 2 + j) .nan = .fin 0) ∧
      (∀ i j, j ≤ i → i < 2 → l.getD (i * 2 + j) .nan = cholVal sqEx aSym2 2 l i j)) :=
  ⟨by decide, by decide, claim_C1 sqEx aSym2 2 (by decide) (by decide)⟩

/-- C8: `cholesky` asserts that its input is square and symmetric (failing
the call otherwise), and on a symmetric square input whose pivot quantity
`A[i,i] - s` is negative it raises no error: it returns a result in which
`L[i,i]` is NaN and the NaN propagates down column `i` instead of being
trapped. -/
theorem claim_C8 :
    (∀ (sq : F → F) (a : List F), is_symmetric a = false → cholesky sq a = none) ∧
    (∀ (sq : F → F) (a : List F) (n i : ℕ) (q : ℚ),
      (∀ r : ℚ, r < 0 → sq (.fin r) = .nan) →
      is_square a = some n → is_symmetric a = true → i < n → q < 0 →
      (∀ l, cholesky sq a = some l →
        subF (a.getD (i * n + i) .nan) (cholS n l i i) = .fin q) →
      ∃ l, cholesky sq a = some l ∧ l.getD (i * n + i) .nan = .nan ∧
        (∀ i', i < i' → i' < n → l.getD (i' * n + i) .nan = .nan)) := by
  constructor
  · intro sq a hfalse
    unfold cholesky
    rw [hfalse]
    simp
  · intro sq a n i q hsq hn hsym hi hq hpiv
    obtain ⟨hlen, hrec, hzero⟩ := chol_fold_spec sq a n n le_rfl
    have hchol := cholesky_eq_fold sq a n hn hsym
    set l := (List.range n).foldl (cholRow sq a n) (List.replicate (n * n) (.fin 0)) with hl
    have hnan : l.getD (i * n + i) .nan = .nan := by
      have h1 := hrec i i hi le_rfl
      rw [h1]
      unfold cholVal
      rw [if_pos rfl, hpiv l hchol]
      exact hsq q hq
    refine ⟨l, hchol, hnan, ?_⟩
    intro i' hii' hi'
    have h2 := hrec i' i hi' (le_of_lt hii')
    rw [h2]
    unfold cholVal
    rw [if_neg (by omega), hnan]
    exact divF_nan_right _

theorem claim_C8_witness :
    (is_symmetric aAsym2 = false ∧ cholesky sqEx aAsym2 = none) ∧
    (∃ l, cholesky sqEx aNeg2 = some l ∧ l.getD (0 * 2 + 0) .nan = .nan ∧
      (∀ i', 0 < i' → i' < 2 → l.getD (i' * 2 + 0) .nan = .nan)) :=
  ⟨⟨by decide, claim_C8.1 sqEx aAsym2 (by decide)⟩,
   claim_C8.2 sqEx aNeg2 2 0 (-1) (fun r hr => by simp [sqEx, hr])
     (by decide) (by decide) (by omega) (by norm_num)
     (fun l _ => by simp [cholS, dotF, subF, aNeg2])⟩

end Stats

namespace Stats

/-! ### IRLS pass characterization -/

theorem passCore_spec (fam : Family) (solve : List ℚ → List ℚ → List ℚ)
    (alpha tol : ℚ) (x y weights : List ℚ) (n p : ℕ) (coef : List ℚ)
    (prev : PDev) (nu : List ℚ) (P : PassOut)
    (hP : P = passCore fam solve alpha tol x y weights n p coef prev nu) :
    P.mu = fam.inv_link nu ∧
    P.dmu = fam.d_inv_link nu P.mu ∧
    P.var = fam.variance P.mu ∧
    P.dbeta = (if 0 < alpha
      then apply_dbeta_penalty (compute_dbeta x y P.mu P.dmu P.var weights n p) coef
      else compute_dbeta x y P.mu P.dmu P.var weights n p) ∧
    P.ddbeta = (if 0 < alpha
      then apply_ddbeta_penalty (compute_ddbeta x y P.dmu P.var weights n p) p alpha
      else compute_ddbeta x y P.dmu P.var weights n p) ∧
    P.coef = vsub coef (solve P.ddbeta P.dbeta) ∧
    P.pdev = fam.penalized_deviance y P.mu alpha P.coef ∧
    P.converged = has_converged P.pdev prev tol := by
  subst hP
  exact ⟨rfl, rfl, rfl, rfl, rfl, rfl, rfl, rfl⟩

theorem irlsPass_ok (fam : Family) (solve : List ℚ → List ℚ → List ℚ)
    (alpha tol : ℚ) (offsets : Option (List ℚ)) (x y weights : List ℚ)
    (n p : ℕ) (coef : List ℚ) (prev : PDev) (out : PassOut)
    (h : irlsPass fam solve alpha tol offsets x y weights n p coef prev = .ok out) :
    ∃ nu, out = passCore fam solve alpha tol x y weights n p coef prev nu ∧
      ((offsets = none ∧ nu = (matmul x coef n p false false).getD []) ∨
       (∃ o, offsets = some o ∧ o.length = n ∧
         nu = vadd ((matmul x coef n p false false).getD []) o)) := by
  cases offsets with
  | none =>
      simp only [irlsPass] at h
      injection h with h
      exact ⟨_, h.symm, Or.inl ⟨rfl, rfl⟩⟩
  | some o =>
      simp only [irlsPass] at h
      by_cases ho : o.length = n
      · rw [if_pos ho] at h
        injection h with h
        exact ⟨_, h.symm, Or.inr ⟨o, rfl, ho, rfl⟩⟩
      · rw [if_neg ho] at h
        exact absurd h (by simp)

theorem has_converged_fin_iff (loss lp tol : ℚ) :
    has_converged loss (PDev.fin lp) tol = true ↔ |loss - lp| / lp < tol := by
  simp [has_converged]

theorem has_converged_neg_prev (loss lp tol : ℚ) (hlp : lp < 0) (htol : 0 < tol) :
    has_converged loss (PDev.fin lp) tol = true := by
  rw [has_converged_fin_iff]
  have h1 : |loss - lp| / lp ≤ 0 :=
    div_nonpos_iff.mpr (Or.inl ⟨abs_nonneg _, le_of_lt hlp⟩)
  exact lt_of_le_of_lt h1 htol

/-- C2: in every IRLS iteration, convergence is signaled if and only if the
relative change `|current - previous| / previous` of the penalized deviance
is strictly less than the tolerance; when the previous value is infinite
(as it is before the first pass), convergence is never signaled. -/
theorem claim_C2 (fam : Family) (solve : List ℚ → List ℚ → List ℚ)
    (alpha tol : ℚ) (offsets : Option (List ℚ)) (x y weights : List ℚ)
    (n p : ℕ) (coef : List ℚ) (prev : PDev) (out : PassOut)
    (h : irlsPass fam solve alpha tol offsets x y weights n p coef prev = .ok out) :
    (out.converged = true ↔ ∃ lp, prev = PDev.fin lp ∧ |out.pdev - lp| / lp < tol) ∧
    (prev = PDev.inf → out.converged = false) := by
  obtain ⟨nu, hout, _⟩ := irlsPass_ok fam solve alpha tol offsets x y weights n p coef prev out h
  obtain ⟨_, _, _, _, _, _, _, hconv⟩ :=
    passCore_spec fam solve alpha tol x y weights n p coef prev nu out hout
  constructor
  · constructor
    · intro hc
      rw [hconv] at hc
      cases prev with
      | inf => exact absurd hc (by simp [has_converged])
      | fin lp => exact ⟨lp, rfl, (has_converged_fin_iff _ _ _).mp hc⟩
    · rintro ⟨lp, rfl, hlt⟩
      rw [hconv]
      exact (has_converged_fin_iff _ _ _).mpr hlt
  · rintro rfl
    rw [hconv]
    rfl

theorem claim_C2_witness :
    irlsPass exFam exSolve1 0 (1 / 100000) none [1] [2] [1] 1 1 [2] (PDev.fin 1)
        = .ok (⟨[2], [2], [1], [1], [0], [1], 0, false⟩ : PassOut) ∧
    (((⟨[2], [2], [1], [1], [0], [1], 0, false⟩ : PassOut).converged = true ↔
        ∃ lp, PDev.fin 1 = PDev.fin lp ∧
          |(⟨[2], [2], [1], [1], [0], [1], 0, false⟩ : PassOut).pdev - lp| / lp < 1 / 100000) ∧
      (PDev.fin 1 = PDev.inf →
        (⟨[2], [2], [1], [1], [0], [1], 0, false⟩ : PassOut).converged = false)) := by
  have h : irlsPass exFam exSolve1 0 (1 / 100000) none [1] [2] [1] 1 1 [2] (PDev.fin 1)
      = .ok (⟨[2], [2], [1], [1], [0], [1], 0, false⟩ : PassOut) := by
    norm_num [irlsPass, passCore, exFam, exSolve1, matmul, matmulEntry, vadd, vsub, vmul, vdiv,
      compute_dbeta, compute_ddbeta, weightedX, apply_dbeta_penalty, apply_ddbeta_penalty,
      has_converged, Family.penalized_deviance, ridgeTerm, List.range_succ,
      List.replicate_succ, List.replicate_zero, decide_eq_false_iff_not, abs]
  exact ⟨h, claim_C2 exFam exSolve1 0 (1 / 100000) none [1] [2] [1] 1 1 [2] (PDev.fin 1) _ h⟩

/-- C10: for every finite, strictly negative previous loss and every
current loss, `has_converged` returns `true` whenever the tolerance is
positive (the computed relative change is non-positive); consequently an
IRLS iteration whose preceding penalized deviance was negative always
signals convergence. -/
theorem claim_C10 :
    (∀ loss lp tol : ℚ, lp < 0 → 0 < tol → has_converged loss (PDev.fin lp) tol = true) ∧
    (∀ (fam : Family) (solve : List ℚ → List ℚ → List ℚ) (alpha tol : ℚ)
      (offsets : Option (List ℚ)) (x y weights : List ℚ) (n p : ℕ)
      (coef : List ℚ) (lp : ℚ) (out : PassOut),
      lp < 0 → 0 < tol →
      irlsPass fam solve alpha tol offsets x y weights n p coef (PDev.fin lp) = .ok out →
      out.converged = true) := by
  constructor
  · exact has_converged_neg_prev
  · intro fam solve alpha tol offsets x y weights n p coef lp out hlp htol h
    obtain ⟨nu, hout, _⟩ :=
      irlsPass_ok fam solve alpha tol offsets x y weights n p coef (PDev.fin lp) out h
    obtain ⟨_, _, _, _, _, _, _, hconv⟩ :=
      passCore_spec fam solve alpha tol x y weights n p coef (PDev.fin lp) nu out hout
    rw [hconv]
    exact has_converged_neg_prev _ _ _ hlp htol

theorem claim_C10_witness :
    has_converged 5 (PDev.fin (-2)) (1 / 2) = true ∧
    (irlsPass exFam exSolve1 0 (1 / 2) none [1] [2] [1] 1 1 [2] (PDev.fin (-2))
        = .ok (⟨[2], [2], [1], [1], [0], [1], 0, true⟩ : PassOut) ∧
      (⟨[2], [2], [1], [1], [0], [1], 0, true⟩ : PassOut).converged = true) := by
  have h : irlsPass exFam exSolve1 0 (1 / 2) none [1] [2] [1] 1 1 [2] (PDev.fin (-2))
      = .ok (⟨[2], [2], [1], [1], [0], [1], 0, true⟩ : PassOut) := by
    norm_num [irlsPass, passCore, exFam, exSolve1, matmul, matmulEntry, vadd, vsub, vmul, vdiv,
      compute_dbeta, compute_ddbeta, weightedX, apply_dbeta_penalty, apply_ddbeta_penalty,
      has_converged, Family.penalized_deviance, ridgeTerm, List.range_succ,
      List.replicate_succ, List.replicate_zero, decide_eq_true_eq, abs]
  exact ⟨claim_C10.1 5 (-2) (1 / 2) (by norm_num) (by norm_num),
    h,
    claim_C10.2 exFam exSolve1 0 (1 / 2) none [1] [2] [1] 1 1 [2] (-2) _
      (by norm_num) (by norm_num) h⟩

end Stats

namespace Stats

/-! ### Ridge penalty entry lemmas -/

theorem diag_lt {i i' p : ℕ} (h : i < i') (hip : i < p) : i * p + i < i' * p + i' := by
  calc i * p + i < i * p + p := by omega
  _ = (i + 1) * p := by ring
  _ ≤ i' * p := Nat.mul_le_mul (by omega) le_rfl
  _ ≤ i' * p + i' := Nat.le_add_right _ _

theorem ddbeta_penalty_aux (db : List ℚ) (p : ℕ) (alpha : ℚ) :
    ∀ t, t ≤ p →
      ((List.range t).foldl
        (fun dd i => dd.set (i * p + i) (dd.getD (i * p + i) 0 + alpha)) db).length = db.length ∧
      (∀ i, i < t → i * p + i < db.length →
        ((List.range t).foldl
          (fun dd i => dd.set (i * p + i) (dd.getD (i * p + i) 0 + alpha)) db).getD (i * p + i) 0
          = db.getD (i * p + i) 0 + alpha) ∧
      (∀ k, (∀ i, i < t → k ≠ i * p + i) →
        ((List.range t).foldl
          (fun dd i => dd.set (i * p + i) (dd.getD (i * p + i) 0 + alpha)) db).getD k 0
          = db.getD k 0) := by
  intro t
  induction t with
  | zero => intro _; exact ⟨rfl, by omega, fun k _ => rfl⟩
  | succ t ih =>
      intro ht
      obtain ⟨ihlen, ihdiag, ihother⟩ := ih (by omega)
      rw [foldl_range_succ]
      set R := (List.range t).foldl
        (fun dd i => dd.set (i * p + i) (dd.getD (i * p + i) 0 + alpha)) db with hR
      refine ⟨?_, ?_, ?_⟩
      · rw [List.length_set]; exact ihlen
      · intro i hi hbound
        by_cases hit : i < t
        · have hne : t * p + t ≠ i * p + i := Ne.symm (Nat.ne_of_lt (diag_lt hit (by omega)))
          rw [getD_set_ne' R _ _ _ _ hne]
          exact ihdiag i hit hbound
        · have hieq : i = t := by omega
          subst hieq
          rw [getD_set_self' R _ _ _ (by rw [ihlen]; exact hbound)]
          rw [ihother (i * p + i) (fun i' hi' => Ne.symm (Nat.ne_of_lt (diag_lt hi' (by omega))))]
      · intro k hk
        have hne : t * p + t ≠ k := Ne.symm (hk t (by omega))
        rw [getD_set_ne' R _ _ _ _ hne]
        exact ihother k (fun i hi => hk i (by omega))

theorem apply_ddbeta_penalty_getD_diag (db : List ℚ) (p : ℕ) (alpha : ℚ) (i : ℕ)
    (hi : i < p) (hbound : i * p + i < db.length) :
    (apply_ddbeta_penalty db p alpha).getD (i * p + i) 0 = db.getD (i * p + i) 0 + alpha :=
  (ddbeta_penalty_aux db p alpha p le_rfl).2.1 i hi hbound

theorem apply_ddbeta_penalty_getD_ne (db : List ℚ) (p : ℕ) (alpha : ℚ) (k : ℕ)
    (hk : ∀ i, i < p → k ≠ i * p + i) :
    (apply_ddbeta_penalty db p alpha).getD k 0 = db.getD k 0 :=
  (ddbeta_penalty_aux db p alpha p le_rfl).2.2 k hk

theorem dbeta_penalty_aux (db coef : List ℚ) :
    ∀ t,
      ((List.range' 1 t).foldl
        (fun d i => d.set i (d.getD i 0 + coef.getD i 0)) db).length = db.length ∧
      (∀ k, 1 ≤ k → k < 1 + t → k < db.length →
        ((List.range' 1 t).foldl
          (fun d i => d.set i (d.getD i 0 + coef.getD i 0)) db).getD k 0
          = db.getD k 0 + coef.getD k 0) ∧
      (∀ k, k = 0 ∨ 1 + t ≤ k →
        ((List.range' 1 t).foldl
          (fun d i => d.set i (d.getD i 0 + coef.getD i 0)) db).getD k 0 = db.getD k 0) := by
  intro t
  induction t with
  | zero => exact ⟨rfl, by omega, fun k _ => rfl⟩
  | succ t ih =>
      obtain ⟨ihlen, ihmid, ihother⟩ := ih
      rw [List.range'_concat, List.foldl_append, List.foldl_cons, List.foldl_nil]
      set R := (List.range' 1 t).foldl
        (fun d i => d.set i (d.getD i 0 + coef.getD i 0)) db with hR
      have he : 1 + 1 * t = t + 1 := by omega
      rw [he]
      by_cases hlt : t + 1 < db.length
      · refine ⟨?_, ?_, ?_⟩
        · rw [List.length_set]; exact ihlen
        · intro k h1 h2 h3
          by_cases hk : k = t + 1
          · subst hk
            rw [getD_set_self' R _ _ _ (by rw [ihlen]; exact hlt)]
            rw [ihother (t + 1) (Or.inr (by omega))]
          · have hne : t + 1 ≠ k := Ne.symm hk
            rw [getD_set_ne' R _ _ _ _ hne]
            exact ihmid k h1 (by omega) h3
        · intro k hk
          have hne : t + 1 ≠ k := by omega
          rw [getD_set_ne' R _ _ _ _ hne]
          refine ihother k ?_
          rcases hk with h | h
          · exact Or.inl h
          · exact Or.inr (by omega)
      · have hnoop : R.set (t + 1) (R.getD (t + 1) 0 + coef.getD (t + 1) 0) = R :=
          List.set_eq_of_length_le (by rw [ihlen]; omega)
        rw [hnoop]
        refine ⟨ihlen, ?_, ?_⟩
        · intro k h1 h2 h3
          exact ihmid k h1 (by omega) h3
        · intro k hk
          refine ihother k ?_
          rcases hk with h | h
          · exact Or.inl h
          · exact Or.inr (by omega)

theorem apply_dbeta_penalty_getD_mid (db coef : List ℚ) (k : ℕ)
    (h1 : 1 ≤ k) (h2 : k < coef.length) (h3 : k < db.length) :
    (apply_dbeta_penalty db coef).getD k 0 = db.getD k 0 + coef.getD k 0 :=
  (dbeta_penalty_aux db coef (coef.length - 1)).2.1 k h1 (by omega) h3

theorem apply_dbeta_penalty_getD_zero (db coef : List ℚ) :
    (apply_dbeta_penalty db coef).getD 0 0 = db.getD 0 0 :=
  (dbeta_penalty_aux db coef (coef.length - 1)).2.2 0 (Or.inl rfl)

end Stats

namespace Stats

/-! ### matmul characterization -/

theorem matmul_spec (a b : List ℚ) (arows brows acols bcols : ℕ) (ta tb : Bool)
    (ha : a.length = arows * acols) (hb : b.length = brows * bcols)
    (hra : 0 < arows) (hrb : 0 < brows)
    (hmatch : (if ta then arows else acols) = (if tb then bcols else brows)) :
    ∃ c, matmul a b arows brows ta tb = some c ∧
      c.length = (if ta then acols else arows) * (if tb then brows else bcols) ∧
      (∀ i j, i < (if ta then acols else arows) → j < (if tb then brows else bcols) →
        c.getD (i * (if tb then brows else bcols) + j) 0 =
          matmulEntry a b acols bcols (if ta then arows else acols) ta tb i j) := by
  have hac : a.length / arows = acols := by
    rw [ha]; exact Nat.mul_div_cancel_left _ hra
  have hbc : b.length / brows = bcols := by
    rw [hb]; exact Nat.mul_div_cancel_left _ hrb
  have hsome : matmul a b arows brows ta tb
      = some ((List.range ((if ta then acols else arows) * (if tb then brows else bcols))).map
          (fun idx => matmulEntry a b acols bcols (if ta then arows else acols) ta tb
            (idx / (if tb then brows else bcols)) (idx % (if tb then brows else bcols)))) := by
    simp only [matmul, hac, hbc]
    rw [if_pos hmatch]
  refine ⟨_, hsome, ?_, ?_⟩
  · simp
  · intro i j hi hj
    have hq : 0 < (if tb then brows else bcols) := by omega
    rw [getD_range_map _ _ _ _ (row_idx_lt hi hj)]
    have hdiv : (i * (if tb then brows else bcols) + j) / (if tb then brows else bcols) = i := by
      rw [Nat.mul_comm, Nat.mul_add_div hq, Nat.div_eq_of_lt hj, Nat.add_zero]
    have hmod : (i * (if tb then brows else bcols) + j) % (if tb then brows else bcols) = j := by
      rw [Nat.mul_comm, Nat.mul_add_mod, Nat.mod_eq_of_lt hj]
    rw [hdiv, hmod]

theorem matmul_none (a b : List ℚ) (arows brows acols bcols : ℕ) (ta tb : Bool)
    (ha : a.length = arows * acols) (hb : b.length = brows * bcols)
    (hra : 0 < arows) (hrb : 0 < brows)
    (hmatch : (if ta then arows else acols) ≠ (if tb then bcols else brows)) :
    matmul a b arows brows ta tb = none := by
  have hac : a.length / arows = acols := by
    rw [ha]; exact Nat.mul_div_cancel_left _ hra
  have hbc : b.length / brows = bcols := by
    rw [hb]; exact Nat.mul_div_cancel_left _ hrb
  simp only [matmul, hac, hbc]
  rw [if_neg hmatch]

theorem weightedX_length (x ww : List ℚ) (n p : ℕ) :
    (weightedX x ww n p).length = n * p := by
  simp [weightedX]

theorem weightedX_getD (x ww : List ℚ) (n p k j : ℕ) (hk : k < n) (hj : j < p) :
    (weightedX x ww n p).getD (k * p + j) 0 = x.getD (k * p + j) 0 * ww.getD k 0 := by
  unfold weightedX
  rw [getD_range_map _ _ _ _ (row_idx_lt hk hj)]
  have hp : 0 < p := by omega
  have hdiv : (k * p + j) / p = k := by
    rw [Nat.mul_comm, Nat.mul_add_div hp, Nat.div_eq_of_lt hj, Nat.add_zero]
  rw [hdiv]

theorem compute_dbeta_length (x y mu dmu var weights : List ℚ) (n p : ℕ) :
    (compute_dbeta x y mu dmu var weights n p).length = p := by
  simp [compute_dbeta]

theorem compute_ddbeta_spec (x y dmu var weights : List ℚ) (n p : ℕ)
    (hx : x.length = n * p) (hn : 0 < n) :
    (compute_ddbeta x y dmu var weights n p).length = p * p ∧
    (∀ i j, i < p → j < p →
      (compute_ddbeta x y dmu var weights n p).getD (i * p + j) 0 =
        ((List.range n).map (fun k =>
          x.getD (k * p + i) 0 *
            (x.getD (k * p + j) 0 *
              (vdiv (vmul weights (vmul dmu dmu)) var).getD k 0))).sum) := by
  obtain ⟨c, hc, hclen, hcent⟩ :=
    matmul_spec x (weightedX x (vdiv (vmul weights (vmul dmu dmu)) var) n p) n n p p
      true false hx (weightedX_length _ _ _ _) hn hn (by simp)
  have heq : compute_ddbeta x y dmu var weights n p = c := by
    simp only [compute_ddbeta]
    rw [hc]
    rfl
  rw [heq]
  simp at hclen hcent
  refine ⟨hclen, ?_⟩
  intro i j hi hj
  rw [List.getD_eq_getElem?_getD, hcent i j hi hj]
  simp only [matmulEntry, ite_true, ite_false]
  congr 1
  apply List.map_congr_left
  intro k hk
  rw [List.mem_range] at hk
  rw [weightedX_getD x _ n p k j hk hj]
  simp

end Stats

namespace Stats

/-- C3 (corrected): when the ridge penalty `alpha` is strictly positive,
each IRLS iteration adds `coef[i]` to the gradient entry `dbeta[i]` for
every non-intercept index `i ≥ 1` and leaves `dbeta[0]` unchanged, and
adds `alpha` to every diagonal entry of the Hessian `ddbeta` — the
intercept entry `(0,0)` included — leaving off-diagonal entries
unchanged; when `alpha` is `0` neither penalty is applied. -/
theorem claim_C3_amended (fam : Family) (solve : List ℚ → List ℚ → List ℚ)
    (alpha tol : ℚ) (offsets : Option (List ℚ)) (x y weights : List ℚ)
    (n p : ℕ) (coef : List ℚ) (prev : PDev) (out : PassOut)
    (h : irlsPass fam solve alpha tol offsets x y weights n p coef prev = .ok out)
    (hx : x.length = n * p) (hn : 0 < n) (hcoef : coef.length = p) :
    (0 < alpha →
      out.dbeta.getD 0 0 = (compute_dbeta x y out.mu out.dmu out.var weights n p).getD 0 0 ∧
      (∀ i, 1 ≤ i → i < p →
        out.dbeta.getD i 0
          = (compute_dbeta x y out.mu out.dmu out.var weights n p).getD i 0 + coef.getD i 0) ∧
      (∀ i, i < p →
        out.ddbeta.getD (i * p + i) 0
          = (compute_ddbeta x y out.dmu out.var weights n p).getD (i * p + i) 0 + alpha) ∧
      (∀ i j, i < p → j < p → i ≠ j →
        out.ddbeta.getD (i * p + j) 0
          = (compute_ddbeta x y out.dmu out.var weights n p).getD (i * p + j) 0)) ∧
    (alpha = 0 →
      out.dbeta = compute_dbeta x y out.mu out.dmu out.var weights n p ∧
      out.ddbeta = compute_ddbeta x y out.dmu out.var weights n p) := by
  obtain ⟨nu, hout, _⟩ := irlsPass_ok fam solve alpha tol offsets x y weights n p coef prev out h
  obtain ⟨_, _, _, hdbeta, hddbeta, _, _, _⟩ :=
    passCore_spec fam solve alpha tol x y weights n p coef prev nu out hout
  constructor
  · intro hpos
    rw [if_pos hpos] at hdbeta hddbeta
    refine ⟨?_, ?_, ?_, ?_⟩
    · rw [hdbeta]
      exact apply_dbeta_penalty_getD_zero _ _
    · intro i h1 h2
      rw [hdbeta]
      exact apply_dbeta_penalty_getD_mid _ _ i h1 (by omega)
        (by rw [compute_dbeta_length]; exact h2)
    · intro i hi
      rw [hddbeta]
      refine apply_ddbeta_penalty_getD_diag _ _ _ i hi ?_
      rw [(compute_ddbeta_spec x y out.dmu out.var weights n p hx hn).1]
      exact idx_lt hi hi
    · intro i j hi hj hij
      rw [hddbeta]
      refine apply_ddbeta_penalty_getD_ne _ _ _ _ ?_
      intro i' hi' hcontra
      obtain ⟨h1, h2⟩ := idx_inj hj hi' hcontra
      omega
  · intro hzero
    rw [hzero] at hdbeta hddbeta
    rw [if_neg (by norm_num)] at hdbeta hddbeta
    exact ⟨hdbeta, hddbeta⟩

/-- C3 counterexample: in a concrete IRLS pass with `alpha = 1` (a 1×1
design, whose only column is the intercept), the Hessian diagonal entry of
the intercept row/column is penalized: the raw `ddbeta[0,0]` is 1 but the
pass uses 2 = 1 + alpha, contradicting the claim that the intercept
row/column is excluded from the diagonal penalty. -/
theorem claim_C3_counterexample :
    irlsPass exFam exSolve1 1 (1 / 100000) none [1] [2] [1] 1 1 [2] PDev.inf
      = .ok (⟨[2], [2], [1], [1], [0], [2], 0, false⟩ : PassOut) ∧
    (⟨[2], [2], [1], [1], [0], [2], 0, false⟩ : PassOut).ddbeta.getD (0 * 1 + 0) 0
      = (compute_ddbeta [1] [2] [1] [1] [1] 1 1).getD (0 * 1 + 0) 0 + 1 ∧
    (⟨[2], [2], [1], [1], [0], [2], 0, false⟩ : PassOut).ddbeta.getD (0 * 1 + 0) 0
      ≠ (compute_ddbeta [1] [2] [1] [1] [1] 1 1).getD (0 * 1 + 0) 0 := by
  refine ⟨?_, ?_, ?_⟩ <;>
    norm_num [irlsPass, passCore, exFam, exSolve1, matmul, matmulEntry, vadd, vsub, vmul, vdiv,
      compute_dbeta, compute_ddbeta, weightedX, apply_dbeta_penalty, apply_ddbeta_penalty,
      has_converged, Family.penalized_deviance, ridgeTerm, List.range_succ,
      List.replicate_succ, List.replicate_zero, decide_eq_false_iff_not, abs]

theorem claim_C3_witness :
    irlsPass exFam exSolve1 1 (1 / 100000) none [1] [2] [1] 1 1 [2] PDev.inf
      = .ok (⟨[2], [2], [1], [1], [0], [2], 0, false⟩ : PassOut) ∧
    (⟨[2], [2], [1], [1], [0], [2], 0, false⟩ : PassOut).ddbeta.getD (0 * 1 + 0) 0
      = (compute_ddbeta [1] [2] [1] [1] [1] 1 1).getD (0 * 1 + 0) 0 + 1 := by
  have h : irlsPass exFam exSolve1 1 (1 / 100000) none [1] [2] [1] 1 1 [2] PDev.inf
      = .ok (⟨[2], [2], [1], [1], [0], [2], 0, false⟩ : PassOut) := by
    norm_num [irlsPass, passCore, exFam, exSolve1, matmul, matmulEntry, vadd, vsub, vmul, vdiv,
      compute_dbeta, compute_ddbeta, weightedX, apply_dbeta_penalty, apply_ddbeta_penalty,
      has_converged, Family.penalized_deviance, ridgeTerm, List.range_succ,
      List.replicate_succ, List.replicate_zero, decide_eq_false_iff_not, abs]
  refine ⟨h, ?_⟩
  exact ((claim_C3_amended exFam exSolve1 1 (1 / 100000) none [1] [2] [1] 1 1 [2] PDev.inf _
    h rfl (by omega) rfl).1 (by norm_num)).2.2.1 0 (by omega)

end Stats

namespace Stats

/-- C4 (corrected): in every IRLS iteration the penalized deviance used for
the convergence comparison is recomputed after the coefficient update
`coef ← coef - delta` at the new coefficient vector, but at the mean vector
`mu` computed from the pre-update coefficients (the current iteration's
`mu`), not at the mean vector implied by the updated coefficients. -/
theorem claim_C4_amended (fam : Family) (solve : List ℚ → List ℚ → List ℚ)
    (alpha tol : ℚ) (offsets : Option (List ℚ)) (x y weights : List ℚ)
    (n p : ℕ) (coef : List ℚ) (prev : PDev) (out : PassOut)
    (h : irlsPass fam solve alpha tol offsets x y weights n p coef prev = .ok out) :
    out.pdev = fam.penalized_deviance y out.mu alpha out.coef ∧
    out.coef = vsub coef (solve out.ddbeta out.dbeta) ∧
    (offsets = none →
      out.mu = fam.inv_link ((matmul x coef n p false false).getD [])) ∧
    (∀ o, offsets = some o →
      out.mu = fam.inv_link (vadd ((matmul x coef n p false false).getD []) o)) := by
  obtain ⟨nu, hout, hnu⟩ := irlsPass_ok fam solve alpha tol offsets x y weights n p coef prev out h
  obtain ⟨hmu, _, _, _, _, hcoef2, hpdev, _⟩ :=
    passCore_spec fam solve alpha tol x y weights n p coef prev nu out hout
  refine ⟨hpdev, hcoef2, ?_, ?_⟩
  · intro hnone
    rcases hnu with ⟨_, hval⟩ | ⟨o, hsome, _, _⟩
    · rw [hmu, hval]
    · rw [hnone] at hsome; cases hsome
  · intro o ho
    rcases hnu with ⟨hnone, _⟩ | ⟨o', hsome, _, hval⟩
    · rw [ho] at hnone; cases hnone
    · rw [ho] at hsome
      injection hsome with hsame
      rw [hmu, hval, hsame]

/-- C4 counterexample: in a concrete pass (identity-link family, 2×2
design, `alpha = 0`, the exact solve of the arising 2×2 system), the
penalized deviance threaded into the convergence test is 2, computed at
the pre-update `mu = [1,1]`, whereas the penalized deviance at the new
coefficients and the mean vector they imply is 0; hence it is not
recomputed at the new `mu`. -/
theorem claim_C4_counterexample :
    irlsPass exFam solveC4 0 (1 / 100000) none [1, 0, 1, 1] [0, 2] [1, 1] 2 2 [1, 0] PDev.inf
      = .ok (⟨[0, 2], [1, 1], [1, 1], [1, 1], [0, -1], [2, 1, 1, 1], 2, false⟩ : PassOut) ∧
    exFam.penalized_deviance [0, 2]
      (exFam.inv_link ((matmul [1, 0, 1, 1]
        (⟨[0, 2], [1, 1], [1, 1], [1, 1], [0, -1], [2, 1, 1, 1], 2, false⟩ : PassOut).coef
        2 2 false false).getD [])) 0
      (⟨[0, 2], [1, 1], [1, 1], [1, 1], [0, -1], [2, 1, 1, 1], 2, false⟩ : PassOut).coef = 0 ∧
    (⟨[0, 2], [1, 1], [1, 1], [1, 1], [0, -1], [2, 1, 1, 1], 2, false⟩ : PassOut).pdev = 2 ∧
    (2 : ℚ) ≠ 0 := by
  refine ⟨?_, ?_, ?_, ?_⟩ <;>
    norm_num [irlsPass, passCore, exFam, solveC4, matmul, matmulEntry, vadd, vsub, vmul, vdiv,
      compute_dbeta, compute_ddbeta, weightedX, apply_dbeta_penalty, apply_ddbeta_penalty,
      has_converged, Family.penalized_deviance, ridgeTerm, List.range_succ,
      List.replicate_succ, List.replicate_zero, decide_eq_false_iff_not, abs]

theorem claim_C4_witness :
    irlsPass exFam exSolve1 0 (1 / 100000) none [1] [2] [1] 1 1 [2] PDev.inf
      = .ok (⟨[2], [2], [1], [1], [0], [1], 0, false⟩ : PassOut) ∧
    (⟨[2], [2], [1], [1], [0], [1], 0, false⟩ : PassOut).pdev
      = exFam.penalized_deviance [2]
          (⟨[2], [2], [1], [1], [0], [1], 0, false⟩ : PassOut).mu 0
          (⟨[2], [2], [1], [1], [0], [1], 0, false⟩ : PassOut).coef ∧
    (⟨[2], [2], [1], [1], [0], [1], 0, false⟩ : PassOut).mu
      = exFam.inv_link ((matmul [1] [2] 1 1 false false).getD []) := by
  have h : irlsPass exFam exSolve1 0 (1 / 100000) none [1] [2] [1] 1 1 [2] PDev.inf
      = .ok (⟨[2], [2], [1], [1], [0], [1], 0, false⟩ : PassOut) := by
    norm_num [irlsPass, passCore, exFam, exSolve1, matmul, matmulEntry, vadd, vsub, vmul, vdiv,
      compute_dbeta, compute_ddbeta, weightedX, apply_dbeta_penalty, apply_ddbeta_penalty,
      has_converged, Family.penalized_deviance, ridgeTerm, List.range_succ,
      List.replicate_succ, List.replicate_zero, decide_eq_false_iff_not, abs]
  obtain ⟨h1, _, h3, _⟩ :=
    claim_C4_amended exFam exSolve1 0 (1 / 100000) none [1] [2] [1] 1 1 [2] PDev.inf _ h
  exact ⟨h, h1, h3 rfl⟩

end Stats

namespace Stats

/-! ### fit loop characterization -/

theorem fitLoop_first_error (fam : Family) (solve : List ℚ → List ℚ → List ℚ)
    (alpha tol : ℚ) (offsets : Option (List ℚ)) (x y weights : List ℚ)
    (n p max_iter fuel : ℕ) (coef : List ℚ) (prev : PDev) (n_iter : ℕ) (e : FitError)
    (h : irlsPass fam solve alpha tol offsets x y weights n p coef prev = .error e) :
    fitLoop fam solve alpha tol offsets x y weights n p max_iter fuel coef prev n_iter
      = .error e := by
  cases fuel <;> simp only [fitLoop, h]

theorem fitLoop_zero (fam : Family) (solve : List ℚ → List ℚ → List ℚ)
    (alpha tol : ℚ) (offsets : Option (List ℚ)) (x y weights : List ℚ)
    (n p max_iter : ℕ) (coef : List ℚ) (prev : PDev) (n_iter : ℕ) :
    fitLoop fam solve alpha tol offsets x y weights n p max_iter 0 coef prev n_iter
      = match irlsPass fam solve alpha tol offsets x y weights n p coef prev with
        | .error e => .error e
        | .ok out => .ok ⟨out.coef, out.mu, out.dmu, out.var, out.pdev, n_iter + 1⟩ := rfl

theorem fitLoop_succ (fam : Family) (solve : List ℚ → List ℚ → List ℚ)
    (alpha tol : ℚ) (offsets : Option (List ℚ)) (x y weights : List ℚ)
    (n p max_iter fuel : ℕ) (coef : List ℚ) (prev : PDev) (n_iter : ℕ) :
    fitLoop fam solve alpha tol offsets x y weights n p max_iter (fuel + 1) coef prev n_iter
      = match irlsPass fam solve alpha tol offsets x y weights n p coef prev with
        | .error e => .error e
        | .ok out =>
            if max_iter ≤ n_iter + 1 ∨ out.converged then
              .ok ⟨out.coef, out.mu, out.dmu, out.var, out.pdev, n_iter + 1⟩
            else
              fitLoop fam solve alpha tol offsets x y weights n p max_iter fuel
                out.coef (.fin out.pdev) (n_iter + 1) := rfl

theorem fitLoop_ok_spec (fam : Family) (solve : List ℚ → List ℚ → List ℚ)
    (alpha tol : ℚ) (offsets : Option (List ℚ)) (x y weights : List ℚ)
    (n p max_iter : ℕ) :
    ∀ (fuel : ℕ) (coef : List ℚ) (prev : PDev) (n_iter : ℕ) (lo : LoopOut),
      fitLoop fam solve alpha tol offsets x y weights n p max_iter fuel coef prev n_iter
        = .ok lo →
      ∃ coef2 prev2 out,
        irlsPass fam solve alpha tol offsets x y weights n p coef2 prev2 = .ok out ∧
        lo.coef = out.coef ∧ lo.mu = out.mu ∧ lo.dmu = out.dmu ∧ lo.var = out.var ∧
        lo.pdev = out.pdev ∧ n_iter < lo.n_iter ∧ lo.n_iter ≤ max max_iter (n_iter + 1) := by
  intro fuel
  induction fuel with
  | zero =>
      intro coef prev n_iter lo h
      rw [fitLoop_zero] at h
      cases hpass : irlsPass fam solve alpha tol offsets x y weights n p coef prev with
      | error e => simp only [hpass] at h; exact Except.noConfusion h
      | ok out =>
          simp only [hpass] at h
          injection h with h
          subst h
          exact ⟨coef, prev, out, hpass, rfl, rfl, rfl, rfl, rfl,
            Nat.lt_succ_self n_iter, le_max_right _ _⟩
  | succ fuel ih =>
      intro coef prev n_iter lo h
      rw [fitLoop_succ] at h
      cases hpass : irlsPass fam solve alpha tol offsets x y weights n p coef prev with
      | error e => simp only [hpass] at h; exact Except.noConfusion h
      | ok out =>
          simp only [hpass] at h
          by_cases hstop : max_iter ≤ n_iter + 1 ∨ out.converged = true
          · rw [if_pos hstop] at h
            injection h with h
            subst h
            exact ⟨coef, prev, out, hpass, rfl, rfl, rfl, rfl, rfl,
              Nat.lt_succ_self n_iter, le_max_right _ _⟩
          · rw [if_neg hstop] at h
            obtain ⟨c2, p2, out2, hpass2, h1, h2, h3, h4, h5, h6, h7⟩ :=
              ih out.coef (.fin out.pdev) (n_iter + 1) lo h
            refine ⟨c2, p2, out2, hpass2, h1, h2, h3, h4, h5, by omega, ?_⟩
            have hlt : n_iter + 1 < max_iter := by
              rcases Nat.lt_or_ge (n_iter + 1) max_iter with hx | hx
              · exact hx
              · exact absurd (Or.inl hx) hstop
            omega

end Stats

namespace Stats

theorem is_matrix_some (x : List ℚ) (n p : ℕ) (h : is_matrix x n = some p) :
    0 < n ∧ x.length = n * p := by
  unfold is_matrix at h
  by_cases hc : 0 < n ∧ n ∣ x.length
  · rw [if_pos hc] at h
    injection h with h
    exact ⟨hc.1, by rw [← h]; exact (Nat.div_mul_cancel hc.2).symm ▸ (Nat.mul_div_cancel' hc.2).symm⟩
  · rw [if_neg hc] at h
    exact Option.noConfusion h

theorem is_design_is_matrix (x : List ℚ) (n : ℕ) (h : is_design x n = true) :
    ∃ p, is_matrix x n = some p := by
  unfold is_design at h
  cases hm : is_matrix x n with
  | none => rw [hm] at h; exact Bool.noConfusion h
  | some p => exact ⟨p, rfl⟩

theorem fitValidate_ok (m : GLM) (x y : List ℚ) (p : ℕ) (weights : List ℚ)
    (h : fitValidate m x y = .ok (p, weights)) :
    is_matrix x y.length = some p ∧ is_design x y.length = true ∧
    ((m.weights = none ∧ weights = List.replicate y.length 1) ∨
     (m.weights = some weights ∧ weights.length = y.length)) := by
  unfold fitValidate at h
  cases hm : is_matrix x y.length with
  | none => simp only [hm] at h; exact Except.noConfusion h
  | some p2 =>
      simp only [hm] at h
      by_cases hd : is_design x y.length = true
      · rw [if_pos hd] at h
        cases hw : m.weights with
        | none =>
            simp only [hw] at h
            injection h with h
            injection h with h1 h2
            subst h1
            exact ⟨rfl, hd, Or.inl ⟨rfl, h2.symm⟩⟩
        | some w =>
            simp only [hw] at h
            by_cases hwl : w.length = y.length
            · rw [if_pos hwl] at h
              injection h with h
              injection h with h1 h2
              subst h1
              subst h2
              exact ⟨rfl, hd, Or.inr ⟨rfl, hwl⟩⟩
            · rw [if_neg hwl] at h
              exact Except.noConfusion h
      · rw [if_neg hd] at h
        exact Except.noConfusion h

theorem fit_ok_spec (m : GLM) (solve : List ℚ → List ℚ → List ℚ) (x y : List ℚ)
    (max_iter : ℕ) (r : FitResult) (h : fit m solve x y max_iter = .ok r) :
    ∃ p weights lo,
      fitValidate m x y = .ok (p, weights) ∧
      fitLoop m.family solve m.alpha m.tolerance m.offsets x y weights y.length p
        max_iter max_iter ((List.replicate p (0 : ℚ)).set 0 (mean y)) .inf 0 = .ok lo ∧
      r = ⟨lo.coef, m.family.deviance y lo.mu,
           compute_ddbeta x y lo.dmu lo.var weights y.length p,
           lo.mu, lo.dmu, lo.var, lo.pdev, lo.n_iter⟩ := by
  unfold fit at h
  cases hv : fitValidate m x y with
  | error e => simp only [hv] at h; exact Except.noConfusion h
  | ok pw =>
      obtain ⟨p, weights⟩ := pw
      simp only [hv] at h
      cases hl : fitLoop m.family solve m.alpha m.tolerance m.offsets x y weights y.length p
          max_iter max_iter ((List.replicate p (0 : ℚ)).set 0 (mean y)) .inf 0 with
      | error e => simp only [hl] at h; exact Except.noConfusion h
      | ok lo =>
          simp only [hl] at h
          injection h with h
          exact ⟨p, weights, lo, rfl, hl, h.symm⟩

/-- C5: on termination of `fit`, the stored deviance is computed from the
unpenalized deviance formula at the final `mu` (equivalently, the last
penalized deviance minus the ridge term), and the stored information
matrix is the freshly recomputed unpenalized weighted cross-product
`Xᵀ·diag(w)·X` — no ridge diagonal addition — even when `alpha > 0`. -/
theorem claim_C5 (m : GLM) (solve : List ℚ → List ℚ → List ℚ) (x y : List ℚ)
    (max_iter : ℕ) (r : FitResult) (h : fit m solve x y max_iter = .ok r) :
    r.deviance = m.family.deviance y r.mu ∧
    r.pdev = m.family.penalized_deviance y r.mu m.alpha r.coef ∧
    r.deviance = r.pdev - m.alpha * ridgeTerm r.coef ∧
    (∃ p weights,
      is_matrix x y.length = some p ∧
      ((m.weights = none ∧ weights = List.replicate y.length 1) ∨
       (m.weights = some weights ∧ weights.length = y.length)) ∧
      r.information_matrix = compute_ddbeta x y r.dmu r.var weights y.length p ∧
      (∀ i j, i < p → j < p →
        r.information_matrix.getD (i * p + j) 0 =
          ((List.range y.length).map (fun k =>
            x.getD (k * p + i) 0 *
              (x.getD (k * p + j) 0 *
                (vdiv (vmul weights (vmul r.dmu r.dmu)) r.var).getD k 0))).sum)) := by
  obtain ⟨p, weights, lo, hv, hl, hr⟩ := fit_ok_spec m solve x y max_iter r h
  obtain ⟨hm, hd, hw⟩ := fitValidate_ok m x y p weights hv
  obtain ⟨hn, hx⟩ := is_matrix_some x y.length p hm
  obtain ⟨c2, p2, out, hpass, e1, e2, e3, e4, e5, _, _⟩ :=
    fitLoop_ok_spec m.family solve m.alpha m.tolerance m.offsets x y weights y.length p
      max_iter max_iter _ _ _ _ hl
  obtain ⟨nu, hout, _⟩ :=
    irlsPass_ok m.family solve m.alpha m.tolerance m.offsets x y weights y.length p c2 p2 out hpass
  obtain ⟨_, _, _, _, _, _, hpdev, _⟩ :=
    passCore_spec m.family solve m.alpha m.tolerance x y weights y.length p c2 p2 nu out hout
  subst hr
  refine ⟨rfl, ?_, ?_, p, weights, hm, hw, rfl, ?_⟩
  · show lo.pdev = m.family.penalized_deviance y lo.mu m.alpha lo.coef
    rw [e5, e2, e1]
    exact hpdev
  · show m.family.deviance y lo.mu = lo.pdev - m.alpha * ridgeTerm lo.coef
    have : lo.pdev = m.family.deviance y lo.mu + m.alpha * ridgeTerm lo.coef := by
      rw [e5, e2, e1, hpdev]
      rfl
    rw [this]
    ring
  · intro i j hi hj
    show (compute_ddbeta x y lo.dmu lo.var weights y.length p).getD (i * p + j) 0 = _
    exact (compute_ddbeta_spec x y lo.dmu lo.var weights y.length p hx hn).2 i j hi hj

theorem claim_C5_witness :
    fit exGLMa exSolve1 [1] [2] 1 = .ok (⟨[2], 0, [1], [2], [1], [1], 0, 1⟩ : FitResult) ∧
    ((⟨[2], 0, [1], [2], [1], [1], 0, 1⟩ : FitResult).deviance
        = exGLMa.family.deviance [2] (⟨[2], 0, [1], [2], [1], [1], 0, 1⟩ : FitResult).mu ∧
      (⟨[2], 0, [1], [2], [1], [1], 0, 1⟩ : FitResult).deviance
        = (⟨[2], 0, [1], [2], [1], [1], 0, 1⟩ : FitResult).pdev
            - exGLMa.alpha * ridgeTerm (⟨[2], 0, [1], [2], [1], [1], 0, 1⟩ : FitResult).coef) := by
  have h : fit exGLMa exSolve1 [1] [2] 1 = .ok (⟨[2], 0, [1], [2], [1], [1], 0, 1⟩ : FitResult) := by
    norm_num [fit, fitValidate, fitLoop, irlsPass, passCore, exGLMa, exFam, exSolve1, mean,
      is_matrix, is_design, matmul, matmulEntry, vadd, vsub, vmul, vdiv,
      compute_dbeta, compute_ddbeta, weightedX, apply_dbeta_penalty, apply_ddbeta_penalty,
      has_converged, Family.penalized_deviance, ridgeTerm, List.range_succ,
      List.replicate_succ, List.replicate_zero, decide_eq_true_eq, abs]
  obtain ⟨c1, _, c3, _⟩ := claim_C5 exGLMa exSolve1 [1] [2] 1 _ h
  exact ⟨h, c1, c3⟩

/-- C6 (corrected): a `fit` call always terminates (the embedding is a
total function), and the IRLS loop executes at least one pass and at most
`max max_iter 1` passes: the "at most `max_iter`" bound of the claim fails
at `max_iter = 0`, where one pass still runs before the cap test. -/
theorem claim_C6_amended (m : GLM) (solve : List ℚ → List ℚ → List ℚ) (x y : List ℚ)
    (max_iter : ℕ) (r : FitResult) (h : fit m solve x y max_iter = .ok r) :
    1 ≤ r.n_iter ∧ r.n_iter ≤ max max_iter 1 := by
  obtain ⟨p, weights, lo, hv, hl, hr⟩ := fit_ok_spec m solve x y max_iter r h
  obtain ⟨_, _, _, _, _, _, _, _, _, h1, h2⟩ :=
    fitLoop_ok_spec m.family solve m.alpha m.tolerance m.offsets x y weights y.length p
      max_iter max_iter _ _ _ _ hl
  subst hr
  constructor
  · show 1 ≤ lo.n_iter; omega
  · show lo.n_iter ≤ max max_iter 1; omega

theorem claim_C6_counterexample :
    fit exGLM exSolve1 [1] [2] 0 = .ok (⟨[2], 0, [1], [2], [1], [1], 0, 1⟩ : FitResult) ∧
    (⟨[2], 0, [1], [2], [1], [1], 0, 1⟩ : FitResult).n_iter = 1 ∧ ¬(1 ≤ 0) := by
  refine ⟨?_, rfl, by omega⟩
  norm_num [fit, fitValidate, fitLoop, irlsPass, passCore, exGLM, exFam, exSolve1, mean,
    is_matrix, is_design, matmul, matmulEntry, vadd, vsub, vmul, vdiv,
    compute_dbeta, compute_ddbeta, weightedX, apply_dbeta_penalty, apply_ddbeta_penalty,
    has_converged, Family.penalized_deviance, ridgeTerm, List.range_succ,
    List.replicate_succ, List.replicate_zero, decide_eq_true_eq, abs]

theorem claim_C6_witness :
    fit exGLM exSolve1 [1] [2] 1 = .ok (⟨[2], 0, [1], [2], [1], [1], 0, 1⟩ : FitResult) ∧
    1 ≤ (⟨[2], 0, [1], [2], [1], [1], 0, 1⟩ : FitResult).n_iter ∧
    (⟨[2], 0, [1], [2], [1], [1], 0, 1⟩ : FitResult).n_iter ≤ max 1 1 := by
  have h : fit exGLM exSolve1 [1] [2] 1 = .ok (⟨[2], 0, [1], [2], [1], [1], 0, 1⟩ : FitResult) := by
    norm_num [fit, fitValidate, fitLoop, irlsPass, passCore, exGLM, exFam, exSolve1, mean,
      is_matrix, is_design, matmul, matmulEntry, vadd, vsub, vmul, vdiv,
      compute_dbeta, compute_ddbeta, weightedX, apply_dbeta_penalty, apply_ddbeta_penalty,
      has_converged, Family.penalized_deviance, ridgeTerm, List.range_succ,
      List.replicate_succ, List.replicate_zero, decide_eq_true_eq, abs]
  exact ⟨h, claim_C6_amended exGLM exSolve1 [1] [2] 1 _ h⟩

end Stats

namespace Stats

/-- C7 (corrected): `fit` validates at entry — before the IRLS loop — that
`x` is an `n×p` matrix with `n = y.length`, that the first column of `x`
is all ones, and, when weights are set, that their length is `n`; each of
these violations is reported immediately and execution does not proceed.
The offsets length, however, is not examined by the entry validation: it
is checked inside the first IRLS pass (still before any coefficient
update), and a violation is then reported for every `max_iter`. -/
theorem claim_C7_amended (m : GLM) (solve : List ℚ → List ℚ → List ℚ)
    (x y : List ℚ) (max_iter : ℕ) :
    (is_matrix x y.length = none → fit m solve x y max_iter = .error .notMatrix) ∧
    (is_design x y.length = false → (∃ p, is_matrix x y.length = some p) →
      fit m solve x y max_iter = .error .notDesign) ∧
    (∀ w, m.weights = some w → w.length ≠ y.length → is_design x y.length = true →
      fit m solve x y max_iter = .error .badWeights) ∧
    (∀ o, m.offsets = some o → o.length ≠ y.length → is_design x y.length = true →
      (∀ w, m.weights = some w → w.length = y.length) →
      fit m solve x y max_iter = .error .badOffsets) ∧
    (∀ o1 o2 : Option (List ℚ),
      fitValidate { m with offsets := o1 } x y = fitValidate { m with offsets := o2 } x y) := by
  refine ⟨?_, ?_, ?_, ?_, ?_⟩
  · intro hm
    have hval : fitValidate m x y = .error .notMatrix := by
      unfold fitValidate
      simp only [hm]
    unfold fit
    simp only [hval]
  · intro hd hp
    obtain ⟨p, hm⟩ := hp
    have hval : fitValidate m x y = .error .notDesign := by
      unfold fitValidate
      simp only [hm]
      rw [if_neg (by simp [hd])]
    unfold fit
    simp only [hval]
  · intro w hw hwl hd
    obtain ⟨p, hm⟩ := is_design_is_matrix x y.length hd
    have hval : fitValidate m x y = .error .badWeights := by
      unfold fitValidate
      simp only [hm]
      rw [if_pos hd]
      simp only [hw]
      rw [if_neg hwl]
    unfold fit
    simp only [hval]
  · intro o ho hol hd hwok
    obtain ⟨p, hm⟩ := is_design_is_matrix x y.length hd
    have hpass : ∀ (weights coef : List ℚ) (prev : PDev),
        irlsPass m.family solve m.alpha m.tolerance m.offsets x y weights y.length p coef prev
          = .error .badOffsets := by
      intro weights coef prev
      rw [ho]
      simp only [irlsPass]
      rw [if_neg hol]
    obtain ⟨w, hval⟩ : ∃ w, fitValidate m x y = .ok (p, w) := by
      unfold fitValidate
      simp only [hm]
      rw [if_pos hd]
      cases hw : m.weights with
      | none => exact ⟨_, rfl⟩
      | some w =>
          refine ⟨w, ?_⟩
          show (if w.length = y.length then Except.ok (p, w)
            else Except.error FitError.badWeights) = Except.ok (p, w)
          rw [if_pos (hwok w hw)]
    have hloop : fitLoop m.family solve m.alpha m.tolerance m.offsets x y w y.length p
        max_iter max_iter ((List.replicate p (0 : ℚ)).set 0 (mean y)) .inf 0
          = .error .badOffsets :=
      fitLoop_first_error m.family solve m.alpha m.tolerance m.offsets x y w y.length p
        max_iter max_iter _ .inf 0 .badOffsets (hpass w _ .inf)
    unfold fit
    simp only [hval, hloop]
  · intro o1 o2
    rfl

/-- C7 counterexample: a concrete model whose offsets have the wrong
length passes the whole entry validation of `fit` (`.ok`), so the offsets
length is not checked at entry; the call still fails, but only when the
first IRLS pass runs. -/
theorem claim_C7_counterexample :
    fitValidate mBadOff [1] [2] = .ok (1, [1]) ∧
    fit mBadOff exSolve1 [1] [2] 5 = .error .badOffsets := by
  have hval : fitValidate mBadOff [1] [2] = .ok (1, [1]) := by
    norm_num [fitValidate, is_matrix, is_design, mBadOff]
  refine ⟨hval, ?_⟩
  have hpass : ∀ (coef : List ℚ) (prev : PDev),
      irlsPass mBadOff.family exSolve1 mBadOff.alpha mBadOff.tolerance mBadOff.offsets
        [1] [2] [1] ([2] : List ℚ).length 1 coef prev = .error .badOffsets := by
    intro coef prev
    simp [mBadOff, irlsPass]
  have hloop : fitLoop mBadOff.family exSolve1 mBadOff.alpha mBadOff.tolerance mBadOff.offsets
      [1] [2] [1] ([2] : List ℚ).length 1 5 5
      ((List.replicate 1 (0 : ℚ)).set 0 (mean [2])) .inf 0 = .error .badOffsets :=
    fitLoop_first_error mBadOff.family exSolve1 mBadOff.alpha mBadOff.tolerance mBadOff.offsets
      [1] [2] [1] ([2] : List ℚ).length 1 5 5 _ .inf 0 .badOffsets (hpass _ .inf)
  unfold fit
  simp only [hval, hloop]

theorem claim_C7_witness :
    is_matrix [1, 2] ([2, 3, 4] : List ℚ).length = none ∧
    fit exGLM exSolve1 [1, 2] [2, 3, 4] 7 = .error .notMatrix :=
  ⟨by norm_num [is_matrix],
   (claim_C7_amended exGLM exSolve1 [1, 2] [2, 3, 4] 7).1 (by norm_num [is_matrix])⟩

end Stats

namespace Stats

/-- C9: each of the four transpose-flag combinations of the matrix product
validates that the column count of the effective (possibly transposed)
left operand equals the row count of the effective right operand, returns
the product with the resulting shape when they match, and fails with a
shape-mismatch error when they disagree. -/
theorem claim_C9 (A B : Matrix)
    (hA : A.data.length = A.nrows * A.ncols) (hB : B.data.length = B.nrows * B.ncols)
    (hra : 0 < A.nrows) (hrb : 0 < B.nrows) :
    ((A.ncols = B.nrows →
        ∃ C, A.dot B = some C ∧ C.nrows = A.nrows ∧ C.ncols = B.ncols ∧
          C.data.length = A.nrows * B.ncols ∧
          (∀ i j, i < A.nrows → j < B.ncols →
            entryAt C.data C.ncols i j =
              ((List.range A.ncols).map (fun k =>
                entryAt A.data A.ncols i k * entryAt B.data B.ncols k j)).sum)) ∧
      (A.ncols ≠ B.nrows → A.dot B = none)) ∧
    ((A.nrows = B.nrows →
        ∃ C, A.t_dot B = some C ∧ C.nrows = A.ncols ∧ C.ncols = B.ncols ∧
          C.data.length = A.ncols * B.ncols ∧
          (∀ i j, i < A.ncols → j < B.ncols →
            entryAt C.data C.ncols i j =
              ((List.range A.nrows).map (fun k =>
                entryAt A.data A.ncols k i * entryAt B.data B.ncols k j)).sum)) ∧
      (A.nrows ≠ B.nrows → A.t_dot B = none)) ∧
    ((A.ncols = B.ncols →
        ∃ C, A.dot_t B = some C ∧ C.nrows = A.nrows ∧ C.ncols = B.nrows ∧
          C.data.length = A.nrows * B.nrows ∧
          (∀ i j, i < A.nrows → j < B.nrows →
            entryAt C.data C.ncols i j =
              ((List.range A.ncols).map (fun k =>
                entryAt A.data A.ncols i k * entryAt B.data B.ncols j k)).sum)) ∧
      (A.ncols ≠ B.ncols → A.dot_t B = none)) ∧
    ((A.nrows = B.ncols →
        ∃ C, A.t_dot_t B = some C ∧ C.nrows = A.ncols ∧ C.ncols = B.nrows ∧
          C.data.length = A.ncols * B.nrows ∧
          (∀ i j, i < A.ncols → j < B.nrows →
            entryAt C.data C.ncols i j =
              ((List.range A.nrows).map (fun k =>
                entryAt A.data A.ncols k i * entryAt B.data B.ncols j k)).sum)) ∧
      (A.nrows ≠ B.ncols → A.t_dot_t B = none)) := by
  refine ⟨⟨?_, ?_⟩, ⟨?_, ?_⟩, ⟨?_, ?_⟩, ⟨?_, ?_⟩⟩
  · intro h
    obtain ⟨c, hsome, hlen, hent⟩ :=
      matmul_spec A.data B.data A.nrows B.nrows A.ncols B.ncols false false
        hA hB hra hrb (by simpa using h)
    refine ⟨⟨c, A.nrows, B.ncols⟩, ?_, rfl, rfl, ?_, ?_⟩
    · unfold Matrix.dot
      rw [if_pos h, hsome]
      rfl
    · simpa using hlen
    · intro i j hi hj
      have h2 := hent i j (by simpa using hi) (by simpa using hj)
      simp only [Bool.false_eq_true, if_false, matmulEntry] at h2
      simpa [entryAt] using h2
  · intro h
    unfold Matrix.dot
    rw [if_neg h]
  · intro h
    obtain ⟨c, hsome, hlen, hent⟩ :=
      matmul_spec A.data B.data A.nrows B.nrows A.ncols B.ncols true false
        hA hB hra hrb (by simpa using h)
    refine ⟨⟨c, A.ncols, B.ncols⟩, ?_, rfl, rfl, ?_, ?_⟩
    · unfold Matrix.t_dot
      rw [if_pos h, hsome]
      rfl
    · simpa using hlen
    · intro i j hi hj
      have h2 := hent i j (by simpa using hi) (by simpa using hj)
      simp only [Bool.false_eq_true, if_false, if_true, matmulEntry] at h2
      simpa [entryAt] using h2
  · intro h
    unfold Matrix.t_dot
    rw [if_neg h]
  · intro h
    obtain ⟨c, hsome, hlen, hent⟩ :=
      matmul_spec A.data B.data A.nrows B.nrows A.ncols B.ncols false true
        hA hB hra hrb (by simpa using h)
    refine ⟨⟨c, A.nrows, B.nrows⟩, ?_, rfl, rfl, ?_, ?_⟩
    · unfold Matrix.dot_t
      rw [if_pos h, hsome]
      rfl
    · simpa using hlen
    · intro i j hi hj
      have h2 := hent i j (by simpa using hi) (by simpa using hj)
      simp only [Bool.false_eq_true, if_false, if_true, matmulEntry] at h2
      simpa [entryAt] using h2
  · intro h
    unfold Matrix.dot_t
    rw [if_neg h]
  · intro h
    obtain ⟨c, hsome, hlen, hent⟩ :=
      matmul_spec A.data B.data A.nrows B.nrows A.ncols B.ncols true true
        hA hB hra hrb (by simpa using h)
    refine ⟨⟨c, A.ncols, B.nrows⟩, ?_, rfl, rfl, ?_, ?_⟩
    · unfold Matrix.t_dot_t
      rw [if_pos h, hsome]
      rfl
    · simpa using hlen
    · intro i j hi hj
      have h2 := hent i j (by simpa using hi) (by simpa using hj)
      simp only [if_true, matmulEntry] at h2
      simpa [entryAt] using h2
  · intro h
    unfold Matrix.t_dot_t
    rw [if_neg h]

theorem claim_C9_witness :
    (6 = 2 * 3 ∧ 6 = 3 * 2 ∧ 0 < 2 ∧ 0 < 3) ∧
    (∃ C, Matrix.dot ⟨[1, 2, 3, 4, 5, 6], 2, 3⟩ ⟨[1, 0, 0, 1, 1, 1], 3, 2⟩ = some C ∧
      C.nrows = 2 ∧ C.ncols = 2 ∧ C.data.length = 2 * 2 ∧
      (∀ i j, i < 2 → j < 2 →
        entryAt C.data C.ncols i j =
          ((List.range 3).map (fun k =>
            entryAt [1, 2, 3, 4, 5, 6] 3 i k * entryAt [1, 0, 0, 1, 1, 1] 2 k j)).sum)) ∧
    Matrix.dot ⟨[1, 2, 3, 4, 5, 6], 2, 3⟩ ⟨[1, 0], 2, 1⟩ = none :=
  ⟨⟨rfl, rfl, by omega, by omega⟩,
   ((claim_C9 ⟨[1, 2, 3, 4, 5, 6], 2, 3⟩ ⟨[1, 0, 0, 1, 1, 1], 3, 2⟩
      rfl rfl (by decide) (by decide)).1).1 rfl,
   ((claim_C9 ⟨[1, 2, 3, 4, 5, 6], 2, 3⟩ ⟨[1, 0], 2, 1⟩
      rfl rfl (by decide) (by decide)).1).2 (by decide)⟩

end Stats
